import Mathlib

/-
Verification of the bandcamp title-normalization core (beetsplug/bandcamp):
a shallow embedding of `names.py` (release-level title resolution) and
`track.py` (per-track decomposition), with theorems checking the
natural-language specification against the embedded code.

Python-specific behaviour is modelled explicitly:
  - dictionaries are association lists with unique keys (upsert on merge),
  - `d[k]` raises `KeyError`, `l[i]` raises `IndexError`, keyword-argument
    mismatch raises `TypeError`, unpacking mismatch raises `ValueError`;
    fallible computations live in `Except PyErr`,
  - regular expressions are hand-compiled, pattern by pattern, into
    scanners that mirror the backtracking semantics of Python `re`.
-/

namespace Beetcamp

/-- Python exception kinds that the embedded code can raise. -/
inductive PyErr where
  | keyError
  | indexError
  | typeError
  | valueError
deriving DecidableEq, Repr

/-- JSON-like Python values (the page metadata handed to the plugin). -/
inductive PyJson where
  | null
  | str (s : String)
  | num (n : Nat)
  | list (xs : List PyJson)
  | dict (kvs : List (String × PyJson))

/-- First binding of a key in an association list (Python dict lookup). -/
def assocLookup {α : Type} (kvs : List (String × α)) (k : String) : Option α :=
  match kvs with
  | [] => none
  | (k2, v) :: rest => if k2 = k then some v else assocLookup rest k

/-- Insert-or-replace a binding, keeping insertion order (Python dict update). -/
def assocUpsert {α : Type} (kvs : List (String × α)) (k : String) (v : α) :
    List (String × α) :=
  match kvs with
  | [] => [(k, v)]
  | (k2, v2) :: rest =>
    if k2 = k then (k2, v) :: rest else (k2, v2) :: assocUpsert rest k v

/-- Python `d.get(k)`: `None` (here `none`) when the key is absent.
Only ever applied to dictionaries in the embedded code. -/
def pyDictGetOpt (j : PyJson) (k : String) : Option PyJson :=
  match j with
  | .dict kvs => assocLookup kvs k
  | _ => none

/-- Python `j[k]` on a mapping: `KeyError` when absent, `TypeError` when `j`
is not a mapping. -/
def pySubscript (j : PyJson) (k : String) : Except PyErr PyJson :=
  match j with
  | .dict kvs =>
    match assocLookup kvs k with
    | some v => .ok v
    | none => .error .keyError
  | _ => .error .typeError

/-- Python `j[i]` on a sequence: `IndexError` when out of range. -/
def pyIndex (j : PyJson) (i : Nat) : Except PyErr PyJson :=
  match j with
  | .list xs =>
    match xs[i]? with
    | some v => .ok v
    | none => .error .indexError
  | _ => .error .typeError

/-- Python `k in d` membership test on a mapping. -/
def pyHasKey (j : PyJson) (k : String) : Bool :=
  match j with
  | .dict kvs => (assocLookup kvs k).isSome
  | _ => false

/-- Python `dict(a, ..b)` -like merge `(..a, ..b)`: entries of the second
mapping override entries of the first. -/
def dictMerge (a b : PyJson) : PyJson :=
  match a, b with
  | .dict ka, .dict kb => .dict (kb.foldl (fun acc kv => assocUpsert acc kv.1 kv.2) ka)
  | _, other => other

/-- Maximal runs of decimal digits, as numbers: Python
`re.findall(r"\d+", s)` followed by `int` on every group.
Hand-compiled from the source pattern `NUMBER_PAT`. -/
def numberFindall (cs : List Char) : List Nat :=
  go cs [] where
  /-- Scan with the digit run collected so far (in reverse). -/
  go : List Char → List Char → List Nat
  | [], [] => []
  | [], run => [digitsToNat run.reverse]
  | c :: rest, run =>
    if c.isDigit then go rest (c :: run)
    else match run with
      | [] => go rest []
      | r => digitsToNat r.reverse :: go rest []
  /-- Digit characters to the number they denote. -/
  digitsToNat (ds : List Char) : Nat :=
    ds.foldl (fun acc d => acc * 10 + (d.toNat - 48)) 0

/-- Python `s.split()`: split on whitespace runs, dropping empty pieces. -/
def pySplitWs (cs : List Char) : List String :=
  go [] cs where
  /-- Scan with the current token collected so far (in reverse). -/
  go : List Char → List Char → List String
  | cur, [] => if cur.isEmpty then [] else [String.mk cur.reverse]
  | cur, c :: rest =>
    if c.isWhitespace then
      if cur.isEmpty then go [] rest else String.mk cur.reverse :: go [] rest
    else go (c :: cur) rest

/-- Python `s.strip(chars)`: remove characters of the set from both ends. -/
def pyStripChars (set : List Char) (cs : List Char) : List Char :=
  ((cs.dropWhile set.contains).reverse.dropWhile set.contains).reverse

/-- Python `s.replace(old, new)`: replace every non-overlapping occurrence,
left to right.  `s.replace("", new)` with `new = ""` (the only way the
embedded code ever passes an empty pattern) leaves the string unchanged. -/
def pyReplace (s old new : String) : String :=
  match old.toList with
  | [] => s
  | o :: os => String.mk (go (s.toList.length) s.toList (o :: os) new.toList)
where
  /-- Fueled scan; every step consumes at least one input character. -/
  go : Nat → List Char → List Char → List Char → List Char
  | 0, cs, _, _ => cs
  | _ + 1, [], _, _ => []
  | fuel + 1, c :: rest, old, new =>
    if old.isPrefixOf (c :: rest) then
      new ++ go fuel ((c :: rest).drop old.length) old new
    else c :: go fuel rest old new

/-- Python `s.lower()` (character-list based so that proofs can evaluate
it by reduction). -/
def pyLower (s : String) : String :=
  String.mk (s.toList.map Char.toLower)

/-- Python `s.startswith(pre)`. -/
def pyStartsWith (s pre : String) : Bool :=
  pre.toList.isPrefixOf s.toList

/-- Python `s.strip()`: remove whitespace from both ends. -/
def pyStripStr (s : String) : String :=
  String.mk
    (((s.toList.dropWhile Char.isWhitespace).reverse.dropWhile
        Char.isWhitespace).reverse)

/-- Python `s[n:]` by character count. -/
def pyDropChars (s : String) (n : Nat) : String :=
  String.mk (s.toList.drop n)

/-- Contiguous-sublist test on character lists. -/
def listInfix (sub : List Char) : List Char → Bool
  | [] => sub.isEmpty
  | c :: rest => sub.isPrefixOf (c :: rest) || listInfix sub rest

/-- Python `a in b` on strings: substring containment. -/
def pyInStr (sub s : String) : Bool :=
  listInfix sub.toList s.toList

/-! ### The remix pattern (`Remix.PATTERN` in `track.py`)

The source pattern (verbose, case-insensitive):

    (?P<start>^)?
    \ *\(?
    (?P<text>
      (?:
          (?P<b>\[)
        | (?P<p>\((?!.*\())
        | (?<!-)-\ (?!.*([([]|\ -\ ))
      )
      (?P<remixer>[single or double quote]?\b\w.*?|)\ *
      (?P<type>(re)?mix|rmx|edit|bootleg|(?<=\w\ )version|remastered)\b
      [^])]*
      (?(b)\])
      (?(p)\))
    )
    (?P<end>$)?

It is hand-compiled below into a backtracking scanner with the same
alternative ordering, greedy and lazy quantifier behaviour, lookarounds
and conditional groups as Python `re`. -/

/-- Python `\w` (ASCII fragment: letters, digits, underscore). -/
def isWordChar (c : Char) : Bool := c.isAlphanum || c == '_'

/-- The single-quote character (written by code point to keep sources plain). -/
def quoteChar : Char := Char.ofNat 39

/-- Characters accepted by the pattern fragment matching a quote. -/
def isQuote (c : Char) : Bool := c == quoteChar || c == '"'

/-- Case-insensitive comparison of characters. -/
def lowEq (a b : Char) : Bool := a.toLower == b.toLower

/-- Case-insensitive literal match at position `i`; returns the end position. -/
def matchLitCI (cs : List Char) (i : Nat) : List Char → Option Nat
  | [] => some i
  | l :: ls =>
    match cs[i]? with
    | some c => if lowEq c l then matchLitCI cs (i + 1) ls else none
    | none => none

/-- Number of literal spaces at position `i` (the fragment matching zero or
more spaces). -/
def spaceRunFrom (cs : List Char) (i : Nat) : Nat :=
  ((cs.drop i).takeWhile (· == ' ')).length

/-- Whether `target` occurs at or after position `i`, on the same line
(a dot in the pattern does not cross a newline). -/
def hasCharFromNoNL (cs : List Char) (i : Nat) (target : Char) : Bool :=
  ((cs.drop i).takeWhile (fun c => c != '\n')).contains target

/-- Whether the fragment `sub` occurs at or after position `i`, on the same
line. -/
def hasSubFromNoNL (cs : List Char) (i : Nat) (sub : List Char) : Bool :=
  listInfix sub ((cs.drop i).takeWhile (fun c => c != '\n'))

/-- The characters of `cs` from position `a` (inclusive) to `b` (exclusive). -/
def sliceStr (cs : List Char) (a b : Nat) : String :=
  String.mk ((cs.drop a).take (b - a))

/-- Word-boundary test after a keyword: the next character is absent or not a
word character (the previous character, a keyword letter, is one). -/
def wordBoundaryAfter (cs : List Char) (j : Nat) : Bool :=
  match cs[j]? with
  | some c => !isWordChar c
  | none => true

/-- The type-keyword alternation
`(re)?mix|rmx|edit|bootleg|(?<=\w\ )version|remastered` followed by a word
boundary, tried in source order; returns the end position of the keyword. -/
def typeMatch (cs : List Char) (i : Nat) : Option Nat :=
  tryKw "remix" <|> tryKw "mix" <|> tryKw "rmx" <|> tryKw "edit" <|>
    tryKw "bootleg" <|> tryVersion <|> tryKw "remastered"
where
  tryKw (kw : String) : Option Nat :=
    match matchLitCI cs i kw.toList with
    | some j => if wordBoundaryAfter cs j then some j else none
    | none => none
  /-- `version` only participates after a word character and a space. -/
  tryVersion : Option Nat :=
    if 2 ≤ i && cs[i - 1]? == some ' ' &&
        (match cs[i - 2]? with | some c => isWordChar c | none => false) then
      tryKw "version"
    else none

/-- After the type keyword: `[^])]*` (greedy, cannot cross a closing bracket),
then the conditional closers for the bracket and parenthesis groups; returns
the end position of the `text` group. -/
def afterType (cs : List Char) (bFlag pFlag : Bool) (j : Nat) : Option Nat :=
  let r3 := j + ((cs.drop j).takeWhile (fun c => c != ']' && c != ')')).length
  if bFlag then
    match cs[r3]? with
    | some c => if c == ']' then some (r3 + 1) else none
    | none => none
  else if pFlag then
    match cs[r3]? with
    | some c => if c == ')' then some (r3 + 1) else none
    | none => none
  else some r3

/-- The continuation after the remixer group: zero or more literal spaces
(the type keywords start with letters, so only the full space run can
succeed), the type keyword, and the closers.  Returns
`(typeStart, typeEnd, textEnd)`. -/
def contAfterRemixer (cs : List Char) (bFlag pFlag : Bool) (rEnd : Nat) :
    Option (Nat × Nat × Nat) :=
  let r1 := rEnd + spaceRunFrom cs rEnd
  match typeMatch cs r1 with
  | some r2 =>
    match afterType cs bFlag pFlag r2 with
    | some r4 => some (r1, r2, r4)
    | none => none
  | none => none

/-- The lazy tail of the remixer (a non-greedy dot star): extend one
character at a time (never across a newline) until the continuation
matches.  Returns `(remixerEnd, typeStart, typeEnd, textEnd)`. -/
def lazyLoop (cs : List Char) (bFlag pFlag : Bool) :
    Nat → Nat → Option (Nat × Nat × Nat × Nat)
  | pos, 0 =>
    match contAfterRemixer cs bFlag pFlag pos with
    | some (a, b, c) => some (pos, a, b, c)
    | none => none
  | pos, fuel + 1 =>
    match contAfterRemixer cs bFlag pFlag pos with
    | some (a, b, c) => some (pos, a, b, c)
    | none =>
      match cs[pos]? with
      | some c => if c == '\n' then none else lazyLoop cs bFlag pFlag (pos + 1) fuel
      | none => none

/-- One non-empty remixer alternative: a word boundary, a word character,
then the lazy tail; `q1` is the position after the optional quote, the
remixer group itself starts at `q`. -/
def remixerAlt (cs : List Char) (bFlag pFlag : Bool) (q1 : Nat) :
    Option (Nat × Nat × Nat × Nat) :=
  let boundary := q1 == 0 ||
    (match cs[q1 - 1]? with | some c => !isWordChar c | none => true)
  match cs[q1]? with
  | some c =>
    if boundary && isWordChar c then
      lazyLoop cs bFlag pFlag (q1 + 1) (cs.length - q1)
    else none
  | none => none

/-- The remixer group: optional quote (greedy), word start and lazy tail, or
the empty alternative.  Returns `(remixerEnd, typeStart, typeEnd, textEnd)`. -/
def remixerRegion (cs : List Char) (bFlag pFlag : Bool) (q : Nat) :
    Option (Nat × Nat × Nat × Nat) :=
  let withQuote :=
    match cs[q]? with
    | some c => if isQuote c then remixerAlt cs bFlag pFlag (q + 1) else none
    | none => none
  let emptyAlt :=
    match contAfterRemixer cs bFlag pFlag q with
    | some (a, b, c) => some (q, a, b, c)
    | none => none
  withQuote <|> remixerAlt cs bFlag pFlag q <|> emptyAlt

/-- The opening alternation of the `text` group: a bracket, a parenthesis
not followed by another one on the line, or a dash-space not preceded by a
dash and not followed by a bracket or another dash delimiter.  Returns the
participation flags of the bracket and parenthesis groups and the position
after the opener.  The three branches require distinct first characters, so
the choice is deterministic. -/
def textAlt (cs : List Char) (p0 : Nat) : Option (Bool × Bool × Nat) :=
  match cs[p0]? with
  | some c =>
    if c == '[' then some (true, false, p0 + 1)
    else if c == '(' then
      if hasCharFromNoNL cs (p0 + 1) '(' then none else some (false, true, p0 + 1)
    else if c == '-' then
      if (p0 != 0 && cs[p0 - 1]? == some '-') then none
      else if cs[p0 + 1]? != some ' ' then none
      else if hasCharFromNoNL cs (p0 + 2) '[' || hasCharFromNoNL cs (p0 + 2) '(' ||
          hasSubFromNoNL cs (p0 + 2) [' ', '-', ' '] then none
      else some (false, false, p0 + 2)
    else none
  | none => none

/-- A remix annotation found in a title: the named groups of
`Remix.PATTERN` (the source field `end` is renamed `end_`). -/
structure Remix where
  full : String
  remixer : String
  text : String
  type : String
  start : Bool
  end_ : Bool
deriving DecidableEq, Repr

/-- Attempt of `Remix.PATTERN` anchored at position `i`: the optional start
anchor, greedy spaces, an optional opening parenthesis, then the `text`
group; the `type` field is kept as matched (lowercased later by
`from_name`). -/
def remixMatchAt (cs : List Char) (i : Nat) : Option Remix :=
  trySpaces (spaceRunFrom cs i)
where
  core (p0 : Nat) : Option Remix :=
    match textAlt cs p0 with
    | some (bFlag, pFlag, q) =>
      match remixerRegion cs bFlag pFlag q with
      | some (rEnd, tS, tE, textEnd) =>
        some
          { full := sliceStr cs i textEnd
            remixer := sliceStr cs q rEnd
            text := sliceStr cs p0 textEnd
            type := sliceStr cs tS tE
            start := i == 0
            end_ := textEnd == cs.length }
      | none => none
    | none => none
  attempt (pos : Nat) : Option Remix :=
    (match cs[pos]? with
     | some c => if c == '(' then core (pos + 1) else none
     | none => none) <|> core pos
  trySpaces : Nat → Option Remix
  | 0 => attempt i
  | k + 1 => attempt (i + (k + 1)) <|> trySpaces k

/-- `Remix.PATTERN.search`: the leftmost position with a match wins. -/
def remixSearch (s : String) : Option Remix :=
  go 0 s.toList.length
where
  go (i : Nat) : Nat → Option Remix
  | 0 => remixMatchAt s.toList i
  | fuel + 1 => remixMatchAt s.toList i <|> go (i + 1) fuel

/-- `Remix.from_name`: build the value from the named groups, lowercasing
the type and turning the anchors into booleans; no value when the pattern
does not match. -/
def Remix.from_name (name : String) : Option Remix :=
  (remixSearch name).map fun m => { m with type := pyLower m.type }

/-- `Remix.valid`: the remixer is not "original" (case-insensitively) and
the type is not "remastered". -/
def Remix.valid (r : Remix) : Bool :=
  pyLower r.remixer != "original" && r.type != "remastered"

/-- `Remix.artist`: the remixer, when the remix is valid, the remixer is
not "extended" and the type is not "version"; otherwise absent. -/
def Remix.artist (r : Remix) : Option String :=
  if r.valid && pyLower r.remixer != "extended" && r.type != "version" then
    some r.remixer
  else none

/-! ### The track-name delimiter pattern (`DELIM_NOT_INSIDE_PARENS`)

Source pattern (case-insensitive):
`(?<!-)(?<!^live)(?<!sample\ pack) - (?!-|[^([]+\w[])])`. -/

/-- The negative lookahead body `-|[^([]+\w[])]` anchored at the start of
`l`: a dash, or at least one character that is not an opening bracket,
followed by a word character and a closing bracket. -/
def classScan : List Char → Bool
  | [] => false
  | c :: rest =>
    if c == '(' || c == '[' then false
    else
      (match rest with
       | w :: cl :: _ => isWordChar w && (cl == ']' || cl == ')')
       | _ => false) || classScan rest

/-- Whether `-|[^([]+\w[])]` matches at the start of `l`. -/
def delimNegLookahead (l : List Char) : Bool :=
  match l with
  | '-' :: _ => true
  | _ => classScan l

/-- A delimiter match at the current position: `rest` starts with
space-dash-space and the three lookbehinds (over `brev`, the preceding
characters in reverse) and the lookahead pass.  Returns the remainder of
the string after the match. -/
def delimAt (brev rest : List Char) : Option (List Char) :=
  match rest with
  | ' ' :: '-' :: ' ' :: tail =>
    if brev.head? == some '-' then none
    else if brev.map Char.toLower == ['e', 'v', 'i', 'l'] then none
    else if (brev.take 11).map Char.toLower == "kcap elpmas".toList then none
    else if delimNegLookahead tail then none
    else some tail
  | _ => none

/-- `DELIM_NOT_INSIDE_PARENS.split`: cut the string at every
non-overlapping delimiter match, scanning left to right. -/
def delimSplitGo (brev cur : List Char) : Nat → List Char → List String
  | _, [] => [String.mk cur.reverse]
  | 0, rest => [String.mk (cur.reverse ++ rest)]
  | fuel + 1, c :: rest2 =>
    match delimAt brev (c :: rest2) with
    | some tail =>
      String.mk cur.reverse :: delimSplitGo (' ' :: '-' :: ' ' :: brev) [] fuel tail
    | none => delimSplitGo (c :: brev) (c :: cur) fuel rest2

/-- Split a string on the track-parts delimiter pattern. -/
def delimSplit (s : String) : List String :=
  delimSplitGo [] [] (s.toList.length + 1) s.toList

/-! ### The `Track` record (`track.py`) -/

/-- The per-track record of `track.py` (fields and defaults as in the
dataclass). -/
structure Track where
  json_item : PyJson := .dict []
  track_id : String := ""
  index : Option Nat := none
  medium_index : Option Nat := none
  json_artist : String := ""
  name : String := ""
  ft : String := ""
  catalognum : Option String := none
  ft_artist : String := ""
  remix : Option Remix := none
  digi_only : Bool := false
  track_alt : Option String := none
  album_artist : Option String := none

/-- `Track.duration`: extract three integers from the duration string and
combine them as hours, minutes and seconds; only a missing key is caught
(it yields no value), every other failure propagates.  Unpacking a number
of integer groups other than three raises `ValueError`. -/
def Track.duration (t : Track) : Except PyErr (Option Nat) :=
  match pySubscript t.json_item "duration" with
  | .error .keyError => .ok none
  | .error e => .error e
  | .ok (.str s) =>
    match numberFindall s.toList with
    | [h, m, sec] => .ok (some (h * 3600 + m * 60 + sec))
    | _ => .error .valueError
  | .ok _ => .error .typeError

/-- `Track.name_split`: drop a leading case-insensitive artist prefix, or
split on the delimiter pattern, prepending the artist when no delimiter
occurs in the name. -/
def Track.name_split (t : Track) : List String :=
  if t.json_artist != "" &&
      pyStartsWith (pyLower t.name) (pyLower t.json_artist ++ " - ") then
    [pyDropChars t.name (t.json_artist.length + 3)]
  else if t.json_artist != "" && !(pyInStr " - " t.name) then
    pyStripStr t.json_artist :: delimSplit (pyStripStr t.name)
  else delimSplit (pyStripStr t.name)

/-- `Track.title_without_remix`: the last element of `name_split` (the
split of a string is never empty, so the default is never reached). -/
def Track.title_without_remix (t : Track) : String :=
  t.name_split.getLastD ""

/-- `Track.title`: the main title, with the remix text appended when a
remix was detected and its text is not already contained in the title. -/
def Track.title (t : Track) : String :=
  match t.remix with
  | some r =>
    if !(pyInStr r.text t.title_without_remix) then
      t.title_without_remix ++ " " ++ r.text
    else t.title_without_remix
  | none => t.title_without_remix

/-! ### Release-level title normalization (`names.py`) -/

/-- The en dash. -/
def enDash : Char := Char.ofNat 8211

/-- The em dash. -/
def emDash : Char := Char.ofNat 8212

/-- A candidate track-parts separator character (`SEPARATOR_PAT` class). -/
def isSepChar (c : Char) : Bool :=
  c == '|' || c == enDash || c == emDash || c == '-'

/-- `SEPARATOR_PAT.findall`: every candidate separator character preceded
and followed by whitespace (pattern `(?<=\s)[pipe, dashes](?=\s)`). -/
def sepFindall (cs : List Char) : List Char :=
  go none cs
where
  go : Option Char → List Char → List Char
  | _, [] => []
  | prev, c :: rest =>
    let hit := (match prev with | some p => p.isWhitespace | none => false) &&
      isSepChar c &&
      (match rest with | d :: _ => d.isWhitespace | [] => false)
    if hit then c :: go (some c) rest else go (some c) rest

/-- Build the multiset of counts in first-occurrence order
(Python `collections.Counter` preserves insertion order). -/
def counterInsert (acc : List (Char × Nat)) (c : Char) : List (Char × Nat) :=
  match acc with
  | [] => [(c, 1)]
  | (d, n) :: rest =>
    if d == c then (d, n + 1) :: rest else (d, n) :: counterInsert rest c

/-- Python `Counter(ms)` as an insertion-ordered association list. -/
def counter (ms : List Char) : List (Char × Nat) :=
  ms.foldl counterInsert []

/-- The entry with the greatest count; earlier entries win ties
(`Counter.most_common` is a stable sort by descending count). -/
def pickMax : List (Char × Nat) → Option (Char × Nat)
  | [] => none
  | p :: rest =>
    match pickMax rest with
    | none => some p
    | some q => if q.2 > p.2 then some q else some p

/-- Python `Counter(ms).most_common(1).pop()` (absent for an empty list). -/
def mostCommon1 (ms : List Char) : Option (Char × Nat) :=
  pickMax (counter ms)

/-- `Names.find_common_track_delimiter`: the most common separator when it
occurs in a single-title release or strictly more often than half the
number of titles; a dash otherwise. -/
def find_common_track_delimiter (names : List String) : Char :=
  match mostCommon1 ((names.map (fun n => sepFindall n.toList)).flatten) with
  | none => '-'
  | some (d, c) => if names.length == 1 || 2 * c > names.length then d else '-'

/-- The substitution of `normalize_delimiter`: replace every run of
whitespace, the delimiter character, and another whitespace run — or a
lone tab — with the canonical delimiter (pattern `\s+[delim]\s+|\t`). -/
def ndSubGo (d : Char) : Nat → List Char → List Char
  | 0, rest => rest
  | _ + 1, [] => []
  | fuel + 1, c :: rest =>
    let cs := c :: rest
    let a := (cs.takeWhile Char.isWhitespace).length
    let b := ((cs.drop (a + 1)).takeWhile Char.isWhitespace).length
    if 1 ≤ a && cs[a]? == some d && 1 ≤ b then
      ' ' :: '-' :: ' ' :: ndSubGo d fuel (cs.drop (a + 1 + b))
    else if c == '\t' then ' ' :: '-' :: ' ' :: ndSubGo d fuel rest
    else c :: ndSubGo d fuel rest

/-- `Names.normalize_delimiter`: rewrite every title to the canonical
" - " delimiter. -/
def normalize_delimiter (names : List String) : List String :=
  let d := find_common_track_delimiter names
  names.map (fun n => String.mk (ndSubGo d n.toList.length n.toList))

/-- A match of `NUMBER_PREFIX` (`((?<=^)|(?<=- ))\d{1,2}\W+(?=\D)`)
anchored at the current position: one or two digits (greedy) after the
start of the string or a "- ", then non-word characters, with a non-digit
character required to follow (the greedy non-word run gives one character
back when the lookahead fails at its end).  Returns the matched text. -/
def npMatchAt (brev rest : List Char) : Option String :=
  if brev.isEmpty || brev.take 2 == [' ', '-'] then
    match rest with
    | d1 :: d2 :: rest2 =>
      if d1.isDigit then
        (if d2.isDigit then tryTail [d1, d2] rest2 else none) <|>
          tryTail [d1] (d2 :: rest2)
      else none
    | [d1] => if d1.isDigit then tryTail [d1] [] else none
    | [] => none
  else none
where
  tryTail (ds l : List Char) : Option String :=
    let run := l.takeWhile (fun c => !isWordChar c)
    let k := run.length
    if k == 0 then none
    else
      match l[k]? with
      | none => if 2 ≤ k then some (String.mk (ds ++ run.take (k - 1))) else none
      | some c =>
        if c.isDigit then
          if 2 ≤ k then some (String.mk (ds ++ run.take (k - 1))) else none
        else some (String.mk (ds ++ run))

/-- `NUMBER_PREFIX.search`: the leftmost match. -/
def npSearch (cs : List Char) : Option String :=
  go [] cs
where
  go (brev : List Char) : List Char → Option String
  | [] => npMatchAt brev []
  | c :: rest => npMatchAt brev (c :: rest) <|> go (c :: brev) rest

/-- `Names.remove_number_prefix` (renamed: `removeNumberPrefixes`): when
strictly more than half of the titles carry a number prefix, remove each
title's own matched prefix text from it (a plain string replacement of
every occurrence); otherwise leave all titles unchanged. -/
def removeNumberPrefixes (names : List String) : List String :=
  let pms := names.map (fun n => npSearch n.toList)
  if 2 * (pms.filter Option.isSome).length > names.length then
    (names.zip pms).map (fun np => pyReplace np.1 (np.2.getD "") "")
  else names

/-- A match of the `remove_label` pattern
`([:-]+ |\[)LABEL(\]|$)` (case-insensitive) anchored at the current
position; returns the number of characters consumed. -/
def rlMatchLen (lab cs : List Char) : Option Nat :=
  let viaPfx : Nat → Option Nat := fun pfxLen =>
    match matchLitCI cs pfxLen lab with
    | some j =>
      match cs[j]? with
      | some c => if c == ']' then some (j + 1) else none
      | none => some j
    | none => none
  let run := (cs.takeWhile (fun c => c == ':' || c == '-')).length
  (if 1 ≤ run && cs[run]? == some ' ' then viaPfx (run + 1) else none) <|>
    (if cs.head? == some '[' then viaPfx 1 else none)

/-- The substitution of `remove_label`: replace every match with a single
space, scanning left to right. -/
def rlSubGo (lab : List Char) : Nat → List Char → List Char
  | 0, rest => rest
  | _ + 1, [] => []
  | fuel + 1, c :: rest =>
    match rlMatchLen lab (c :: rest) with
    | some consumed => ' ' :: rlSubGo lab fuel ((c :: rest).drop consumed)
    | none => c :: rlSubGo lab fuel rest

/-- `Names.remove_label`: strip a trailing or bracketed occurrence of the
label from every title, then strip surrounding whitespace. -/
def remove_label (lab : String) (names : List String) : List String :=
  names.map (fun n => pyStripStr (String.mk (rlSubGo lab.toList n.toList.length n.toList)))

/-- A match of `ALBUM_IN_TITLE` (`[- ]*\[([^\]]+ [EL]P)\]+`,
case-insensitive) anchored at the current position: an optional run of
dashes and spaces, an opening bracket, bracket-free content ending in
" EP" or " LP" with at least one preceding character, and one or more
closing brackets.  Returns the full matched text and the group. -/
def aitMatchAt (cs : List Char) : Option (String × String) :=
  let run := cs.takeWhile (fun c => c == '-' || c == ' ')
  let r := run.length
  if cs[r]? == some '[' then
    let inner := (cs.drop (r + 1)).takeWhile (fun c => c != ']')
    if cs[r + 1 + inner.length]? == some ']' then
      match inner.reverse with
      | pC :: elC :: ' ' :: _ :: _ =>
        if lowEq pC 'p' && (lowEq elC 'e' || lowEq elC 'l') then
          let closers :=
            ((cs.drop (r + 1 + inner.length)).takeWhile (fun c => c == ']')).length
          some (String.mk (run ++ '[' :: inner ++ List.replicate closers ']'),
            String.mk inner)
        else none
      | _ => none
    else none
  else none

/-- `ALBUM_IN_TITLE.search`: the leftmost match. -/
def albumInTitleSearch : List Char → Option (String × String)
  | [] => none
  | c :: rest => aitMatchAt (c :: rest) <|> albumInTitleSearch rest

/-- Deduplication keeping first occurrences (the order is irrelevant for
the one-element test that uses it, mirroring a Python set). -/
def dedupGo (seen : List String) : List String → List String
  | [] => []
  | x :: rest =>
    if seen.contains x then dedupGo seen rest
    else x :: dedupGo (x :: seen) rest

/-- `Names.eject_album_name`: when the distinct bracketed album-name
matches across all titles (double quotes removed) form exactly one value,
return it and remove each title's own matched text; otherwise change
nothing. -/
def eject_album_name (names : List String) : Option String × List String :=
  let ms := names.map (fun n => albumInTitleSearch n.toList)
  let albums :=
    dedupGo [] (ms.filterMap (fun m => m.map (fun fg => pyReplace fg.2 "\"" "")))
  match albums with
  | [a] =>
    (some a,
      (ms.zip names).map (fun mn =>
        match mn.1 with
        | some fg => pyReplace mn.2 fg.1 ""
        | none => mn.2))
  | _ => (none, names)

/-- A match of `TITLE_IN_QUOTES`
(`^(.+[^ -])[ -]+"([^"]+)"$`): the decomposition is forced by the
anchors, the quote characters, and the character classes.  Returns the
two groups. -/
def titleInQuotesMatch (cs : List Char) : Option (String × String) :=
  match cs.reverse with
  | '"' :: tailRev =>
    let g2rev := tailRev.takeWhile (fun c => c != '"')
    if g2rev.isEmpty then none
    else
      match tailRev.drop g2rev.length with
      | '"' :: beforeRev =>
        let sepRev := beforeRev.takeWhile (fun c => c == ' ' || c == '-')
        if sepRev.isEmpty then none
        else
          match beforeRev.drop sepRev.length with
          | last :: restRev =>
            if restRev.isEmpty then none
            else if restRev.all (fun c => c != '\n') then
              some (String.mk (last :: restRev).reverse, String.mk g2rev.reverse)
            else none
          | [] => none
      | _ => none
  | _ => none

/-- `Names.split_quoted_titles`: when there is more than one title and
every title matches the quoted-title pattern, expand each to
"group1 - group2"; otherwise change nothing. -/
def split_quoted_titles (names : List String) : List String :=
  if 1 < names.length then
    let ms :=
      names.filterMap (fun n =>
        (titleInQuotesMatch n.toList).map (fun g => g.1 ++ " - " ++ g.2))
    if ms.length == names.length then ms else names
  else names

/-- Modelled from the spec: the catalog-number pattern library (module
`catalognum`, not part of these sources) exposes `anywhere`, a pattern
finding "a catalog number as a standalone token" with a capture group.  A
catalog number is modelled as a label-assigned alphanumeric identifier:
two or more letters followed by one or more digits (such as "ABC123"),
captured from the first position where one occurs. -/
def catalognumAnywhere (word : String) : Option String :=
  go word.toList
where
  go : List Char → Option String
  | [] => none
  | c :: rest =>
    (if c.isAlpha then
       let letters := (c :: rest).takeWhile Char.isAlpha
       if 2 ≤ letters.length then
         let digits := ((c :: rest).drop letters.length).takeWhile Char.isDigit
         if 1 ≤ digits.length then some (String.mk (letters ++ digits)) else none
       else none
     else none) <|> go rest

/-- Modelled from the spec: `in_album_pat` of the same missing module
searches an album title for an embedded catalog number.  Modelled as the
first whitespace-separated token that consists of a catalog number
(letters then digits), optionally wrapped in brackets; returns the full
matched token and the captured number. -/
def catalognumInAlbumPat (album : String) : Option (String × String) :=
  go (pySplitWs album.toList)
where
  tokenCat (t : String) : Option String :=
    let core := pyStripChars ['[', ']', '(', ')'] t.toList
    let letters := core.takeWhile Char.isAlpha
    let digits := (core.drop letters.length).takeWhile Char.isDigit
    if 2 ≤ letters.length && 1 ≤ digits.length &&
        letters.length + digits.length == core.length then
      some (String.mk core)
    else none
  go : List String → Option (String × String)
  | [] => none
  | t :: ts =>
    match tokenCat t with
    | some g => some (t, g)
    | none => go ts

/-- Modelled from the spec: the string-artist utility (module `helpers`,
not part of these sources) exposes `split_artists`, splitting a
possibly-multi-artist string on the configured delimiters.  Modelled as
splitting on commas and ampersands, trimming whitespace and dropping
empty pieces. -/
def split_artists (s : String) : List String :=
  ((go [] s.toList).map (fun p => pyStripStr (String.mk p.reverse))).filter (fun a => a != "")
where
  go (cur : List Char) : List Char → List (List Char)
  | [] => [cur]
  | c :: rest =>
    if c == ',' || c == '&' then cur :: go [] rest else go (c :: cur) rest

/-- The loop body of `eject_common_catalognum`: when the common word
contains a catalog number, record the captured group and remove the whole
searched word from every title, stripping leftover separator punctuation
(`n.replace(m.string, "").strip("|- ")`). -/
def ejectStep (st : Option String × List String) (word : String) :
    Option String × List String :=
  match catalognumAnywhere word with
  | some g =>
    (some g,
      st.2.map (fun n =>
        String.mk (pyStripChars ['|', '-', ' '] (pyReplace n word "").toList)))
  | none => st

/-- `Names.eject_common_catalognum`: tokenize every title on whitespace,
intersect the token sets, and test the first and last token of the first
title; a token that is common to all titles and contains a catalog number
becomes the release catalog number and its text is removed from every
title (with leftover separator punctuation stripped).  Indexing the first
title's tokens raises `IndexError` for an empty title list or a first
title without tokens. -/
def eject_common_catalognum (names : List String) :
    Except PyErr (Option String × List String) :=
  let names_tokens := names.map (fun n => pySplitWs n.toList)
  let common : List String :=
    match names_tokens with
    | [] => []
    | t :: ts => ts.foldl (fun acc s => acc.filter s.contains) t
  match names_tokens with
  | [] => .error .indexError
  | first :: _ =>
    match first with
    | [] => .error .indexError
    | w0 :: _ =>
      let words := [w0, first.getLastD ""]
      .ok ((words.filter common.contains).foldl ejectStep (none, names))

/-- The substitution of `remove_album_catalognum`: delete every
bracket-delimited occurrence of the catalog number
(pattern `(?i)[([]CAT[])]`). -/
def racSubGo (cat : List Char) : Nat → List Char → List Char
  | 0, rest => rest
  | _ + 1, [] => []
  | fuel + 1, c :: rest =>
    (if c == '(' || c == '[' then
      match matchLitCI (c :: rest) 1 cat with
      | some j =>
        match (c :: rest)[j]? with
        | some cl =>
          if cl == ')' || cl == ']' then some ((c :: rest).drop (j + 1)) else none
        | none => none
      | none => none
     else none)
    |>.elim (c :: racSubGo cat fuel rest) (fun tail => racSubGo cat fuel tail)

/-- `Names.remove_album_catalognum`: when a catalog number was found in
the album title, delete its bracketed occurrences from every title. -/
def remove_album_catalognum (cat : Option String) (names : List String) :
    List String :=
  match cat with
  | some c => names.map (fun n => String.mk (racSubGo c.toList n.toList.length n.toList))
  | none => names

/-- Python `s.split(sep, 1)`: at most one cut, at the first occurrence. -/
def pySplitOnce (s sep : String) : List String :=
  go s.toList.length [] s.toList
where
  go : Nat → List Char → List Char → List String
  | _, cur, [] => [String.mk cur.reverse]
  | 0, cur, rest => [String.mk (cur.reverse ++ rest)]
  | fuel + 1, cur, c :: rest =>
    if sep.toList.isPrefixOf (c :: rest) then
      [String.mk cur.reverse, String.mk ((c :: rest).drop sep.length)]
    else go fuel (c :: cur) rest

/-- `Names.ensure_artist_first`: when every title splits in two on " - "
and either all right-hand parts agree and share an artist token with the
album artist, or at least two left-hand parts contain a remix annotation,
swap the two parts of every title. -/
def ensure_artist_first (album_artist : String) (names : List String) :
    List String :=
  let splits := names.map (fun n => pySplitOnce n " - ")
  let left := splits.map (fun s => s.headD "")
  let uniqueTitles := dedupGo [] (splits.map (fun s => s.getD 1 ""))
  if splits.all (fun s => 1 < s.length) &&
      ((uniqueTitles.length == 1 &&
        (split_artists (uniqueTitles.headD "")).any
          (fun a => (split_artists album_artist).contains a)) ||
       1 < (left.filter (fun x => (remixSearch x).isSome)).length) then
    splits.map (fun s => s.getD 1 "" ++ " - " ++ s.headD "")
  else names

/-! ### The `Names` record and `resolve` -/

/-- The release context of `names.py` (fields and defaults as in the
dataclass). -/
structure Names where
  meta : PyJson
  album_artist : String
  album_in_titles : Option String := none
  catalognum_in_titles : Option String := none
  titles : List String := []

/-- Python `item.get("name") or ""` on a label-like mapping (a missing or
null name falls back to the empty string; so does an empty one). -/
def nameOrEmpty (item : PyJson) : Except PyErr String :=
  match item with
  | .dict kvs =>
    match assocLookup kvs "name" with
    | some (.str s) => .ok s
    | some .null => .ok ""
    | none => .ok ""
    | some _ => .error .typeError
  | _ => .error .typeError

/-- `Names.label`: the nested
`meta.get("inAlbum", meta)["albumRelease"][0]["recordLabel"]` lookup;
`KeyError` and `IndexError` fall back to `meta["publisher"]` — a lookup
whose own `KeyError` is NOT caught and propagates. -/
def Names.label (nm : Names) : Except PyErr String :=
  let attempt : Except PyErr PyJson := do
    let base :=
      match pyDictGetOpt nm.meta "inAlbum" with
      | some v => v
      | none => nm.meta
    let ar ← pySubscript base "albumRelease"
    let first ← pyIndex ar 0
    pySubscript first "recordLabel"
  match attempt with
  | .ok item => nameOrEmpty item
  | .error .keyError => do nameOrEmpty (← pySubscript nm.meta "publisher")
  | .error .indexError => do nameOrEmpty (← pySubscript nm.meta "publisher")
  | .error e => .error e

/-- `Names.original_album`: the release title (`str(self.meta["name"])`;
only string titles are modelled). -/
def Names.original_album (nm : Names) : Except PyErr String :=
  match pySubscript nm.meta "name" with
  | .ok (.str s) => .ok s
  | .ok _ => .error .typeError
  | .error e => .error e

/-- `Names.singleton`: the metadata has no track list. -/
def Names.singleton (nm : Names) : Bool :=
  !(pyHasKey nm.meta "track")

/-- Merge every track wrapper with its nested `item`
(`[..t, ..t["item"]]` for each wrapper). -/
def mergeItems : List PyJson → Except PyErr (List PyJson)
  | [] => .ok []
  | t :: ts => do
    let item ← pySubscript t "item"
    let rest ← mergeItems ts
    .ok (dictMerge t item :: rest)

/-- `Names.json_tracks`: a synthetic single entry for a singleton release;
otherwise the merged `track.itemListElement` wrappers, or the empty list
when that entry is missing or empty (a sold-out or delisted release). -/
def Names.json_tracks (nm : Names) : Except PyErr (List PyJson) :=
  if nm.singleton then
    .ok [dictMerge nm.meta (.dict [("byArtist", .dict [("name", .str nm.album_artist)])])]
  else do
    let tr ← pySubscript nm.meta "track"
    match tr with
    | .dict _ =>
      match pyDictGetOpt tr "itemListElement" with
      | some (.list (t :: ts)) => mergeItems (t :: ts)
      | some (.list []) => .ok []
      | some .null => .ok []
      | none => .ok []
      | some _ => .error .typeError
    | _ => .error .typeError

/-- The `name` entries of the track mappings, in order. -/
def namesOf : List PyJson → Except PyErr (List String)
  | [] => .ok []
  | t :: ts => do
    match (← pySubscript t "name") with
    | .str s => do .ok (s :: (← namesOf ts))
    | _ => .error .typeError

/-- `Names.original_titles`: the raw name of every track. -/
def Names.original_titles (nm : Names) : Except PyErr (List String) := do
  namesOf (← nm.json_tracks)

/-- `Names.catalognum_in_album`: the number captured from the album title,
when any (through the modelled pattern library). -/
def Names.catalognum_in_album (nm : Names) : Except PyErr (Option String) := do
  .ok ((catalognumInAlbumPat (← nm.original_album)).map (fun fg => fg.2))

/-- `Names.album`: the album title with the catalog-number match deleted. -/
def Names.album (nm : Names) : Except PyErr String := do
  let oa ← nm.original_album
  match catalognumInAlbumPat oa with
  | some fg => .ok (pyReplace oa fg.1 "")
  | none => .ok oa

/-- `Names.resolve` as shipped: a no-op for an empty title list, the
catalog-stripped album title for a singleton, and otherwise the original
titles unchanged — every further normalization stage in the source is
commented out. -/
def Names.resolve (nm : Names) : Except PyErr Names := do
  let ot ← nm.original_titles
  if ot.isEmpty then pure nm
  else if nm.singleton then do
    pure { nm with titles := [← nm.album] }
  else pure { nm with titles := ot }

/-- `Names.resolve` with the commented-out stages of the source restored
(source lines 231-243): quoted-title splitting, album-catalog and common
catalog-number ejection, number-prefix removal for multi-track releases,
then delimiter normalization, label removal, album-name ejection and
artist-first ordering. -/
def Names.intendedResolve (nm : Names) : Except PyErr Names := do
  let ot ← nm.original_titles
  if ot.isEmpty then pure nm
  else do
    let t0 := split_quoted_titles ot
    if nm.singleton then do
      let t1 := [← nm.album]
      let t4 := normalize_delimiter t1
      let t5 := remove_label (← nm.label) t4
      let (ait, t6) := eject_album_name t5
      pure { nm with album_in_titles := ait,
                     titles := ensure_artist_first nm.album_artist t6 }
    else do
      let t1 := remove_album_catalognum (← nm.catalognum_in_album) t0
      let (cit, t2) ← eject_common_catalognum t1
      let t3 := removeNumberPrefixes t2
      let t4 := normalize_delimiter t3
      let t5 := remove_label (← nm.label) t4
      let (ait, t6) := eject_album_name t5
      pure { nm with catalognum_in_titles := cit, album_in_titles := ait,
                     titles := ensure_artist_first nm.album_artist t6 }

/-! ### `Track.parse_name` and `Track.make` -/

/-- The value of one keyword argument passed to the `Track` dataclass. -/
inductive KwVal where
  | js (j : PyJson)
  | s (v : String)
  | n (v : Option Nat)
  | b (v : Bool)
  | os (v : Option String)

/-- The field names of the `Track` dataclass. -/
def trackFieldNames : List String :=
  ["json_item", "track_id", "index", "medium_index", "json_artist", "name",
   "ft", "catalognum", "ft_artist", "remix", "digi_only", "track_alt",
   "album_artist"]

/-- `Track.parse_name` as shipped: the dict literal uses the VALUE of
`name` as its first key (`{name: name, ...}`), not the literal string
"name"; every other branch of the method is commented out. -/
def Track.parse_name (name artist : String) (_index : Option Nat) :
    List (String × KwVal) :=
  [(name, .s name), ("json_artist", .s artist), ("digi_only", .b false)]

/-- Read a string-valued keyword argument with a default.  Python
dataclasses do not check argument types at runtime; a mismatched value
(possible only when the track name collides with a field name of another
type) is modelled as `TypeError`, a case no theorem below exercises. -/
def kwStr (kvs : List (String × KwVal)) (k d : String) : Except PyErr String :=
  match assocLookup kvs k with
  | none => .ok d
  | some (.s v) => .ok v
  | some _ => .error .typeError

/-- Read an optional-number keyword argument with a default. -/
def kwNum (kvs : List (String × KwVal)) (k : String) (d : Option Nat) :
    Except PyErr (Option Nat) :=
  match assocLookup kvs k with
  | none => .ok d
  | some (.n v) => .ok v
  | some _ => .error .typeError

/-- Read a boolean keyword argument with a default. -/
def kwBool (kvs : List (String × KwVal)) (k : String) (d : Bool) :
    Except PyErr Bool :=
  match assocLookup kvs k with
  | none => .ok d
  | some (.b v) => .ok v
  | some _ => .error .typeError

/-- Read an optional-string keyword argument with a default. -/
def kwOptStr (kvs : List (String × KwVal)) (k : String) (d : Option String) :
    Except PyErr (Option String) :=
  match assocLookup kvs k with
  | none => .ok d
  | some (.os v) => .ok v
  | some (.s v) => .ok (some v)
  | some _ => .error .typeError

/-- Read the json mapping keyword argument. -/
def kwJson (kvs : List (String × KwVal)) (k : String) (d : PyJson) :
    Except PyErr PyJson :=
  match assocLookup kvs k with
  | none => .ok d
  | some (.js v) => .ok v
  | some _ => .error .typeError

/-- Construct the `Track` dataclass from keyword arguments whose names all
name fields. -/
def buildTrack (kvs : List (String × KwVal)) : Except PyErr Track := do
  let ji ← kwJson kvs "json_item" (.dict [])
  let tid ← kwStr kvs "track_id" ""
  let idx ← kwNum kvs "index" none
  let mi ← kwNum kvs "medium_index" none
  let ja ← kwStr kvs "json_artist" ""
  let nameV ← kwStr kvs "name" ""
  let ftV ← kwStr kvs "ft" ""
  let cat ← kwOptStr kvs "catalognum" none
  let fta ← kwStr kvs "ft_artist" ""
  let dg ← kwBool kvs "digi_only" false
  let ta ← kwOptStr kvs "track_alt" none
  let aa ← kwOptStr kvs "album_artist" none
  .ok { json_item := ji, track_id := tid, index := idx, medium_index := mi,
        json_artist := ja, name := nameV, ft := ftV, catalognum := cat,
        ft_artist := fta, remix := none, digi_only := dg, track_alt := ta,
        album_artist := aa }

/-- `Track.make`: assemble the keyword arguments (base entries, then the
result of `parse_name`, later keys overriding) and call the dataclass
constructor, which raises `TypeError` when a keyword does not name a
field. -/
def Track.make (json : PyJson) : Except PyErr Track := do
  let artist : String ←
    match pyDictGetOpt json "byArtist" with
    | none => .ok ""
    | some (.dict kvs) =>
      match assocLookup kvs "name" with
      | none => .ok ""
      | some (.str s) => .ok s
      | some _ => .error .typeError
    | some _ => .error .typeError
  let index : Option Nat ←
    match pyDictGetOpt json "position" with
    | none => .ok none
    | some (.num k) => .ok (some k)
    | some .null => .ok none
    | some _ => .error .typeError
  let tid : String ←
    match (← pySubscript json "@id") with
    | .str s => Except.ok s
    | _ => .error .typeError
  let aa : Option String ←
    match pyDictGetOpt json "album_artist" with
    | none => .ok none
    | some (.str s) => .ok (some s)
    | some .null => .ok none
    | some _ => .error .typeError
  let nameV : String ←
    match (← pySubscript json "name") with
    | .str s => Except.ok s
    | _ => .error .typeError
  let base : List (String × KwVal) :=
    [("json_item", .js json), ("track_id", .s tid), ("index", .n index),
     ("album_artist", .os aa)]
  let data :=
    (Track.parse_name nameV artist index).foldl
      (fun acc kv => assocUpsert acc kv.1 kv.2) base
  if data.all (fun kv => trackFieldNames.contains kv.1) then buildTrack data
  else .error .typeError

/-! ### Concrete fixtures used by the theorems below -/

/-- The metadata of the two-track release of the end-to-end scenario:
titles with number prefixes and a bracketed album suffix, and label
"Label" via the publisher entry. -/
def c2meta : PyJson := .dict
  [("name", .str "Album"),
   ("publisher", .dict [("name", .str "Label")]),
   ("track", .dict [("itemListElement", .list
     [.dict [("item", .dict [("@id", .str "t1"),
                             ("name", .str "01. Artist - Track One [Label EP]")]),
             ("position", .num 1)],
      .dict [("item", .dict [("@id", .str "t2"),
                             ("name", .str "02. Artist - Track Two [Label EP]")]),
             ("position", .num 2)]])])]

/-- The release context for that metadata. -/
def c2names : Names := { meta := c2meta, album_artist := "Artist" }

/-- A remix annotation whose text already appears in the track name. -/
def dubRemix : Remix :=
  { full := " (Dub Mix)", remixer := "Dub", text := "(Dub Mix)",
    type := "mix", start := false, end_ := true }

/-- A track whose title already contains its remix annotation. -/
def dubTrack : Track := { name := "Song (Dub Mix)", remix := some dubRemix }

/-- A track whose title does not contain its remix annotation. -/
def dubTrackPlain : Track := { name := "Song", remix := some dubRemix }

/-- Number of occurrences of a character in a list. -/
def countOcc (d : Char) (ms : List Char) : Nat :=
  (ms.filter (fun c => c == d)).length

/-- Total count carried by the entries of a counter for one key (on a
distinct-keys counter this is the key's single count, and zero for an
absent key). -/
def getCount : List (Char × Nat) → Char → Nat
  | [], _ => 0
  | p :: rest, d => (if p.1 == d then p.2 else 0) + getCount rest d

/-- Well-formedness of a counter: every entry is positive and carries the
total count of its own key. -/
def CounterInv (acc : List (Char × Nat)) : Prop :=
  ∀ p ∈ acc, 1 ≤ p.2 ∧ p.2 = getCount acc p.1

/-- Index of the first occurrence of a character (the list length when it
is absent). -/
def firstIdx (d : Char) : List Char → Nat
  | [] => 0
  | c :: rest => if c == d then 0 else firstIdx d rest + 1

/-- Boolean membership on character lists. -/
def memB (x : Char) : List Char → Bool
  | [] => false
  | c :: rest => c == x || memB x rest

/-- First-occurrence deduplication with an accumulator of already-seen
characters. -/
def dedupChars (seen : List Char) : List Char → List Char
  | [] => []
  | c :: rest =>
    if memB c seen then dedupChars seen rest
    else c :: dedupChars (c :: seen) rest

/-- The separator the claim designates: it occurs in the pooled match
stream, no candidate occurs more often in total, and among the candidates
tied for the greatest total it is the one whose first occurrence comes
earliest. -/
def FirstMostCommonSep (ms : List Char) (d : Char) : Prop :=
  d ∈ ms ∧ (∀ e ∈ ms, countOcc e ms ≤ countOcc d ms) ∧
    (∀ e ∈ ms, countOcc e ms = countOcc d ms → firstIdx d ms ≤ firstIdx e ms)

instance (ms : List Char) (d : Char) : Decidable (FirstMostCommonSep ms d) := by
  unfold FirstMostCommonSep
  infer_instance

/-! ## Theorems -/

/-- C1: the spec promises that `Track.make` succeeds for every well-typed
track mapping carrying the identity fields, but `parse_name` builds its
result dict as a literal whose first key is the VALUE of the track name
(`name: name` instead of the string "name"), so the dataclass
constructor receives the track name as a keyword argument and raises
`TypeError` for every track name that is not itself a `Track` field name
— construction succeeds exactly in the freak case where the name
coincides with a field name such as "name". -/
theorem track_make_name_key_bug :
    Track.make (.dict [("@id", .str "t1"), ("name", .str "My Song")]) =
      .error .typeError
    ∧ (∃ t, Track.make (.dict [("@id", .str "t1"), ("name", .str "name")]) = .ok t
        ∧ t.name = "name") := by
  exact ⟨rfl, ⟨_, rfl, rfl⟩⟩

/-- C2: for the two-track release with number prefixes, "Label EP"
bracket suffixes and label "Label", the shipped `resolve` leaves the
titles as the raw originals and records no `album_in_titles` — the
normalization stages are commented out — while the pipeline the spec
describes (the bypassed source lines restored) produces exactly the
claimed titles and album name. -/
theorem resolve_bypasses_pipeline :
    Names.resolve c2names = .ok { c2names with
      titles := ["01. Artist - Track One [Label EP]",
                 "02. Artist - Track Two [Label EP]"] }
    ∧ Names.intendedResolve c2names = .ok { c2names with
      album_in_titles := some "Label EP",
      titles := ["Artist - Track One", "Artist - Track Two"] } := by
  exact ⟨rfl, rfl⟩

/-- C3 counterexample: on a metadata mapping with neither the nested
album-release label nor a "publisher" key, `Names.label` raises
`KeyError` (the fallback lookup sits inside the `except` handler, so its
own failure propagates) instead of returning the empty string. -/
theorem label_missing_publisher_raises :
    Names.label { meta := .dict [], album_artist := "" } = .error .keyError
    ∧ Names.label { meta := .dict [], album_artist := "" } ≠ .ok "" := by
  exact ⟨rfl, fun h => Except.noConfusion h⟩

/-- C3 amended: `Names.label` falls back from the failed nested lookup to
the publisher entry and yields its name, or the empty string when the
publisher has no name; but when the "publisher" key itself is absent the
`KeyError` of the fallback lookup propagates rather than yielding "". -/
theorem label_fallback_amended :
    ∀ (kvs p : List (String × PyJson)) (aa : String),
      assocLookup kvs "inAlbum" = none →
      assocLookup kvs "albumRelease" = none →
      (assocLookup kvs "publisher" = some (.dict p) →
          assocLookup p "name" = none →
          Names.label { meta := .dict kvs, album_artist := aa } = .ok "")
      ∧ (∀ s, assocLookup kvs "publisher" = some (.dict p) →
          assocLookup p "name" = some (.str s) →
          Names.label { meta := .dict kvs, album_artist := aa } = .ok s)
      ∧ (assocLookup kvs "publisher" = none →
          Names.label { meta := .dict kvs, album_artist := aa } =
            .error .keyError) := by
  intro kvs p aa h1 h2
  refine ⟨?_, ?_, ?_⟩ <;> intros <;>
    simp_all [Names.label, pyDictGetOpt, pySubscript, nameOrEmpty,
      Bind.bind, Except.bind]

/-- C3 amended, witness: the fallback applies at a concrete metadata
mapping whose publisher carries the name "Label". -/
theorem label_fallback_amended_witness :
    Names.label { meta := .dict [("publisher", .dict [("name", .str "Label")])],
                  album_artist := "" } = .ok "Label" :=
  (label_fallback_amended [("publisher", .dict [("name", .str "Label")])]
      [("name", .str "Label")] "" rfl rfl).2.1 "Label" rfl rfl

/-- C4 counterexample: a malformed duration string with two integer
groups makes `Track.duration` raise `ValueError` (only `KeyError` is
caught), not return no value. -/
theorem duration_malformed_raises :
    Track.duration { json_item := .dict [("duration", .str "01:02")] } =
      .error .valueError
    ∧ Track.duration { json_item := .dict [("duration", .str "01:02")] } ≠
      .ok none := by
  exact ⟨rfl, fun h => Except.noConfusion h⟩

/-- C4 amended: `Track.duration` yields 3723 for "01:02:03" and no value
for a missing duration key, but a duration string whose number of integer
groups is not three raises `ValueError` — the malformed case is not
caught. -/
theorem duration_amended :
    (∀ t : Track, pySubscript t.json_item "duration" = .error .keyError →
        t.duration = .ok none)
    ∧ (∀ t : Track,
        pySubscript t.json_item "duration" = .ok (.str "01:02:03") →
        t.duration = .ok (some 3723))
    ∧ (∀ (t : Track) (s : String),
        pySubscript t.json_item "duration" = .ok (.str s) →
        (numberFindall s.toList).length ≠ 3 →
        t.duration = .error .valueError) := by
  refine ⟨?_, ?_, ?_⟩
  · intro t h
    simp [Track.duration, h]
  · intro t h
    simp [Track.duration, h]
    rfl
  · intro t s h hne
    simp only [Track.duration, h]
    cases hl : numberFindall s.toList with
    | nil => rfl
    | cons a l1 =>
      cases l1 with
      | nil => rfl
      | cons b l2 =>
        cases l2 with
        | nil => rfl
        | cons c l3 =>
          cases l3 with
          | nil => exact absurd (by rw [hl]; rfl) hne
          | cons d l4 => rfl

/-- C4 amended, witness: the three behaviours at concrete tracks. -/
theorem duration_amended_witness :
    Track.duration { json_item := .dict [] } = .ok none
    ∧ Track.duration { json_item := .dict [("duration", .str "01:02:03")] } =
        .ok (some 3723)
    ∧ Track.duration { json_item := .dict [("duration", .str "5")] } =
        .error .valueError :=
  ⟨duration_amended.1 _ rfl, duration_amended.2.1 _ rfl,
   duration_amended.2.2 _ "5" rfl (by decide)⟩

/-- C6: for every remix built by `from_name`, validity holds exactly when
the remixer is not "original" (case-insensitively) and the type is not
"remastered", and the artist is the remixer exactly when the remix is
valid, the remixer is not "extended" and the type is not "version";
`from_name "Track (Original Mix)"` captures the remixer "Original" and is
invalid. -/
theorem remix_valid_artist_rules :
    (∀ (name : String) (r : Remix), Remix.from_name name = some r →
      (r.valid = true ↔ pyLower r.remixer ≠ "original" ∧ r.type ≠ "remastered")
      ∧ (r.artist = some r.remixer ↔
          r.valid = true ∧ pyLower r.remixer ≠ "extended" ∧ r.type ≠ "version")
      ∧ ((r.valid = false ∨ pyLower r.remixer = "extended" ∨ r.type = "version") →
          r.artist = none))
    ∧ (∃ r, Remix.from_name "Track (Original Mix)" = some r
        ∧ r.remixer = "Original" ∧ r.valid = false) := by
  constructor
  · intro name r _
    refine ⟨?_, ?_, ?_⟩
    · simp [Remix.valid]
    · constructor
      · intro h
        simp only [Remix.artist] at h
        split at h
        · next hc =>
          simp only [Bool.and_eq_true, bne_iff_ne, ne_eq] at hc
          exact ⟨hc.1.1, hc.1.2, hc.2⟩
        · exact absurd h (by simp)
      · intro h
        simp [Remix.artist, h.1, h.2.1, h.2.2]
    · intro h
      simp only [Remix.artist]
      split
      · next hc =>
        simp only [Bool.and_eq_true, bne_iff_ne, ne_eq] at hc
        rcases h with h | h | h
        · rw [h] at hc; simp at hc
        · exact absurd h hc.1.2
        · exact absurd h hc.2

      · rfl
  · exact ⟨_, rfl, rfl, rfl⟩

/-- C6, witness: the rules applied to the remix captured from
"Track (Original Mix)". -/
theorem remix_valid_artist_rules_witness :
    ∃ r, Remix.from_name "Track (Original Mix)" = some r
      ∧ (r.valid = true ↔ pyLower r.remixer ≠ "original" ∧ r.type ≠ "remastered") :=
  ⟨_, rfl, (remix_valid_artist_rules.1 "Track (Original Mix)" _ rfl).1⟩

/-- C7: when a remix was detected, the title equals the last element of
the name split unchanged if the remix text is already substring-contained
in it, and that element followed by a space and the remix text
otherwise. -/
theorem title_no_duplicate_remix :
    ∀ (t : Track) (r : Remix), t.remix = some r →
      (pyInStr r.text t.title_without_remix = true →
        t.title = t.title_without_remix)
      ∧ (pyInStr r.text t.title_without_remix = false →
        t.title = t.title_without_remix ++ " " ++ r.text) := by
  intro t r h
  constructor <;> intro hin <;> simp [Track.title, h, hin]

/-- C7, witness: with the annotation already contained the title is left
alone; with it absent the annotation is appended once. -/
theorem title_no_duplicate_remix_witness :
    Track.title dubTrack = "Song (Dub Mix)"
    ∧ Track.title dubTrackPlain = "Song (Dub Mix)" :=
  ⟨((title_no_duplicate_remix dubTrack dubRemix rfl).1 rfl).trans rfl,
   ((title_no_duplicate_remix dubTrackPlain dubRemix rfl).2 rfl).trans rfl⟩

/-- The delimiter split always yields at least one piece. -/
theorem delimSplitGo_ne_nil (fuel : Nat) :
    ∀ (brev cur rest : List Char), delimSplitGo brev cur fuel rest ≠ [] := by
  induction fuel with
  | zero =>
    intro brev cur rest
    cases rest <;> simp [delimSplitGo]
  | succ n ih =>
    intro brev cur rest
    cases rest with
    | nil => simp [delimSplitGo]
    | cons c r2 =>
      simp only [delimSplitGo]
      cases h : delimAt brev (c :: r2) with
      | none => exact ih (c :: brev) (c :: cur) r2
      | some tail => simp

/-- A nonempty list has its last element as `getLast?`, and it agrees
with `getLastD`. -/
theorem getLast?_eq_getLastD :
    ∀ l : List String, l ≠ [] → l.getLast? = some (l.getLastD "") := by
  intro l
  induction l with
  | nil => intro h; exact absurd rfl h
  | cons a l ih =>
    intro _
    cases l with
    | nil => rfl
    | cons b l2 =>
      rw [List.getLast?_cons_cons, List.getLastD_cons]
      exact ih (by simp)

/-- C9: `name_split` is never empty — the delimiter split of a string
yields at least one piece and both special branches return nonempty
lists — so the trailing-element access of `title_without_remix` (and with
it `title` and `artist`) is total. -/
theorem name_split_nonempty :
    ∀ t : Track, t.name_split ≠ []
      ∧ t.name_split.getLast? = some t.title_without_remix := by
  intro t
  have hne : t.name_split ≠ [] := by
    unfold Track.name_split
    split_ifs with h1 h2
    · simp
    · simp
    · exact delimSplitGo_ne_nil _ _ _ _
  exact ⟨hne, getLast?_eq_getLastD _ hne⟩

/-- A token accumulator that is nonempty always produces a piece. -/
theorem pySplitWs_go_ne_nil :
    ∀ (rest cur : List Char), cur ≠ [] → pySplitWs.go cur rest ≠ [] := by
  intro rest
  induction rest with
  | nil =>
    intro cur h
    simp [pySplitWs.go, h]
  | cons c r ih =>
    intro cur h
    simp only [pySplitWs.go]
    split_ifs with hw he
    · exact absurd (by simpa using he) h
    · simp
    · exact ih (c :: cur) (by simp)

/-- `str.split()` yields no token exactly for all-whitespace input. -/
theorem pySplitWs_nil_iff :
    ∀ cs : List Char, pySplitWs cs = [] ↔ cs.all Char.isWhitespace := by
  intro cs
  induction cs with
  | nil => simp [pySplitWs, pySplitWs.go]
  | cons c r ih =>
    simp only [pySplitWs] at ih ⊢
    simp only [pySplitWs.go, List.all_cons]
    by_cases hw : c.isWhitespace = true
    · simp only [hw, if_true, List.isEmpty_nil, Bool.true_and]
      exact ih
    · rw [if_neg hw]
      constructor
      · intro h
        exact absurd h (pySplitWs_go_ne_nil r [c] (by simp))
      · intro h
        rw [Bool.and_eq_true] at h
        exact absurd h.1 hw

/-- C10: `eject_common_catalognum` raises `IndexError` exactly when the
title list is empty or its first title has no whitespace token (it is
empty or all whitespace); on every other input it returns a value. -/
theorem eject_common_catalognum_totality :
    ∀ names : List String,
      (eject_common_catalognum names = .error .indexError ↔
        names = [] ∨ pySplitWs (names.headD "").toList = [])
      ∧ ((∃ r, eject_common_catalognum names = .ok r) ↔
        (names ≠ [] ∧ pySplitWs (names.headD "").toList ≠ []))
      ∧ (∀ s : String, pySplitWs s.toList = [] ↔
          s.toList.all Char.isWhitespace) := by
  intro names
  refine ⟨?_, ?_, fun s => pySplitWs_nil_iff s.toList⟩ <;>
  · cases names with
    | nil => simp [eject_common_catalognum]
    | cons n rest =>
      simp only [List.headD_cons]
      cases hts : pySplitWs n.toList with
      | nil =>
        simp only [eject_common_catalognum, List.map_cons, hts]
        simp
      | cons w0 ws =>
        simp only [eject_common_catalognum, List.map_cons, hts]
        simp

/-- C10, witness: the two outcomes at concrete inputs. -/
theorem eject_common_catalognum_totality_witness :
    eject_common_catalognum [] = .error .indexError
    ∧ (∃ r, eject_common_catalognum ["a b"] = .ok r) :=
  ⟨(eject_common_catalognum_totality []).1.mpr (Or.inl rfl),
   (eject_common_catalognum_totality ["a b"]).2.1.mpr ⟨by simp, by decide⟩⟩

/-- A counter member's own count is at most the key's total count. -/
theorem mem_le_getCount :
    ∀ (acc : List (Char × Nat)) (p : Char × Nat), p ∈ acc →
      p.2 ≤ getCount acc p.1 := by
  intro acc
  induction acc with
  | nil => intro p hp; simp at hp
  | cons q rest ih =>
    intro p hp
    rcases List.mem_cons.mp hp with h | h
    · subst h
      simp [getCount]
    · have := ih p h
      simp only [getCount]
      omega

/-- A key with no entry carries a zero total. -/
theorem getCount_eq_zero :
    ∀ (acc : List (Char × Nat)) (d : Char), (∀ p ∈ acc, p.1 ≠ d) →
      getCount acc d = 0 := by
  intro acc
  induction acc with
  | nil => intro d _; rfl
  | cons q rest ih =>
    intro d h
    have hq : (q.1 == d) = false :=
      beq_eq_false_iff_ne.mpr (h q (List.mem_cons_self q rest))
    simp [getCount, hq, ih d (fun p hp => h p (List.mem_cons_of_mem q hp))]

/-- Keys of an updated counter come from the old counter or are the
inserted key. -/
theorem mem_counterInsert_key :
    ∀ (acc : List (Char × Nat)) (c : Char) (p : Char × Nat),
      p ∈ counterInsert acc c → p.1 = c ∨ ∃ q ∈ acc, q.1 = p.1 := by
  intro acc
  induction acc with
  | nil =>
    intro c p hp
    simp [counterInsert] at hp
    subst hp
    exact Or.inl rfl
  | cons q rest ih =>
    intro c p hp
    by_cases hqc : q.1 == c
    · cases q with
      | mk e n =>
        simp only [counterInsert, hqc, if_pos rfl] at hp
        rcases List.mem_cons.mp hp with h | h
        · subst h; exact Or.inr ⟨(e, n), List.mem_cons_self _ _, rfl⟩
        · exact Or.inr ⟨p, List.mem_cons_of_mem _ h, rfl⟩
    · cases q with
      | mk e n =>
        simp only [counterInsert, hqc] at hp
        rw [if_neg (by simp [hqc])] at hp
        rcases List.mem_cons.mp hp with h | h
        · subst h; exact Or.inr ⟨(e, n), List.mem_cons_self _ _, rfl⟩
        · rcases ih c p h with h2 | ⟨r, hr, hr2⟩
          · exact Or.inl h2
          · exact Or.inr ⟨r, List.mem_cons_of_mem _ hr, hr2⟩

/-- Inserting preserves counter well-formedness. -/
theorem counterInsert_inv :
    ∀ (acc : List (Char × Nat)) (c : Char), CounterInv acc →
      CounterInv (counterInsert acc c) := by
  intro acc
  induction acc with
  | nil =>
    intro c _ p hp
    simp [counterInsert] at hp
    subst hp
    simp [getCount]
  | cons q rest ih =>
    intro c hInv
    cases q with
    | mk e n =>
      have hInvHead := hInv (e, n) (List.mem_cons_self _ _)
      have hn1 : 1 ≤ n := hInvHead.1
      have hrestKey : ∀ p ∈ rest, p.1 ≠ e := by
        intro p hp he
        have h1 := (hInv p (List.mem_cons_of_mem _ hp)).2
        have h2 := mem_le_getCount rest p hp
        rw [he] at h1 h2
        have h3 : getCount ((e, n) :: rest) e = n + getCount rest e := by
          simp [getCount]
        omega
      have hrest0 : getCount rest e = 0 := getCount_eq_zero rest e hrestKey
      have hInvRest : CounterInv rest := by
        intro p hp
        refine ⟨(hInv p (List.mem_cons_of_mem _ hp)).1, ?_⟩
        have h1 := (hInv p (List.mem_cons_of_mem _ hp)).2
        have hpe : p.1 ≠ e := hrestKey p hp
        simpa [getCount, if_neg (by simpa using (Ne.symm hpe))] using h1
      by_cases hec : (e == c) = true
      · simp only [counterInsert, if_pos hec]
        intro p hp
        rcases List.mem_cons.mp hp with h | h
        · subst h
          refine ⟨by omega, ?_⟩
          simp [getCount, hrest0]
        · have hpe : p.1 ≠ e := hrestKey p h
          refine ⟨(hInvRest p h).1, ?_⟩
          have := (hInvRest p h).2
          simpa [getCount, if_neg (by simpa using (Ne.symm hpe))] using this
      · simp only [counterInsert, if_neg hec]
        intro p hp
        rcases List.mem_cons.mp hp with h | h
        · subst h
          refine ⟨hn1, ?_⟩
          have hc0 : getCount (counterInsert rest c) e = 0 := by
            apply getCount_eq_zero
            intro p hp he
            rcases mem_counterInsert_key rest c p hp with h2 | ⟨r, hr, hr2⟩
            · rw [he] at h2; exact hec (by simp [h2])
            · exact hrestKey r hr (hr2.trans he)
          simp [getCount, hc0]
        · have hins := ih c hInvRest p h
          refine ⟨hins.1, ?_⟩
          have hpe : p.1 ≠ e := by
            intro he
            rcases mem_counterInsert_key rest c p h with h2 | ⟨r, hr, hr2⟩
            · rw [he] at h2; exact hec (by simp [h2])
            · exact hrestKey r hr (hr2.trans he)
          simpa [getCount, if_neg (by simpa using (Ne.symm hpe))] using hins.2

/-- The counter built from a match list is well-formed. -/
theorem counter_inv : ∀ ms : List Char, CounterInv (counter ms) := by
  have hgen : ∀ (ms : List Char) (acc : List (Char × Nat)), CounterInv acc →
      CounterInv (ms.foldl counterInsert acc) := by
    intro ms
    induction ms with
    | nil => intro acc h; exact h
    | cons c ms ih =>
      intro acc h
      exact ih (counterInsert acc c) (counterInsert_inv acc c h)
  intro ms
  exact hgen ms [] (by intro p hp; simp at hp)

/-- Inserting adds one to the inserted key's total and nothing else. -/
theorem getCount_counterInsert :
    ∀ (acc : List (Char × Nat)) (c d : Char),
      getCount (counterInsert acc c) d =
        getCount acc d + (if c == d then 1 else 0) := by
  intro acc
  induction acc with
  | nil => intro c d; simp [counterInsert, getCount]
  | cons q rest ih =>
    intro c d
    cases q with
    | mk e n =>
      by_cases hec : (e == c) = true
      · have he : e = c := by simpa using hec
        simp only [counterInsert, hec, if_true, getCount]
        cases hB : (e == d) with
        | true =>
          have hcd : (c == d) = true := he ▸ hB
          simp only [hB, hcd, if_true]
          omega
        | false =>
          have hcd : (c == d) = false := he ▸ hB
          simp [hB, hcd]
      · simp only [counterInsert, if_neg hec, getCount, ih c d]
        omega

/-- One scanning step of the occurrence count. -/
theorem countOcc_cons :
    ∀ (d c : Char) (ms : List Char),
      countOcc d (c :: ms) = (if c == d then 1 else 0) + countOcc d ms := by
  intro d c ms
  simp only [countOcc, List.filter_cons]
  by_cases h : (c == d) = true
  · simp [h]
    omega
  · simp [h]

/-- The counter's totals are the occurrence counts of the match list. -/
theorem getCount_counter :
    ∀ (ms : List Char) (d : Char), getCount (counter ms) d = countOcc d ms := by
  have hgen : ∀ (ms : List Char) (acc : List (Char × Nat)) (d : Char),
      getCount (ms.foldl counterInsert acc) d = getCount acc d + countOcc d ms := by
    intro ms
    induction ms with
    | nil => intro acc d; simp [countOcc]
    | cons c ms ih =>
      intro acc d
      simp only [List.foldl_cons]
      rw [ih (counterInsert acc c) d, getCount_counterInsert, countOcc_cons]
      omega
  intro ms d
  simpa [counter, getCount] using hgen ms [] d

/-- The picked maximum is a member of the counter. -/
theorem pickMax_mem :
    ∀ (l : List (Char × Nat)) (p : Char × Nat), pickMax l = some p → p ∈ l := by
  intro l
  induction l with
  | nil => intro p h; simp [pickMax] at h
  | cons q rest ih =>
    intro p h
    simp only [pickMax] at h
    cases hr : pickMax rest with
    | none =>
      rw [hr] at h
      injection h with h
      exact h ▸ List.mem_cons_self q rest
    | some r =>
      rw [hr] at h
      dsimp only at h
      by_cases hc : r.2 > q.2
      · rw [if_pos hc] at h
        injection h with h
        exact List.mem_cons_of_mem _ (h ▸ ih r hr)
      · rw [if_neg hc] at h
        injection h with h
        exact h ▸ List.mem_cons_self q rest

/-- A character with a positive occurrence count occurs. -/
theorem countOcc_pos_mem :
    ∀ (d : Char) (ms : List Char), 1 ≤ countOcc d ms → d ∈ ms := by
  intro d ms
  induction ms with
  | nil => intro h; simp [countOcc] at h
  | cons c rest ih =>
    intro h
    by_cases hc : (c == d) = true
    · have hcd : c = d := by simpa using hc
      simp [hcd, List.mem_cons]
    · rw [countOcc_cons, if_neg hc] at h
      exact List.mem_cons_of_mem _ (ih (by omega))

/-- The most common entry carries its occurrence count and occurs. -/
theorem mostCommon1_spec :
    ∀ (ms : List Char) (d : Char) (c : Nat), mostCommon1 ms = some (d, c) →
      c = countOcc d ms ∧ d ∈ ms := by
  intro ms d c h
  have hmem : (d, c) ∈ counter ms := pickMax_mem _ _ h
  have hinv := counter_inv ms (d, c) hmem
  have hcnt : c = countOcc d ms := by
    have := hinv.2
    rwa [getCount_counter] at this
  exact ⟨hcnt, countOcc_pos_mem d ms (hcnt ▸ hinv.1)⟩

/-- An occurring character has a positive occurrence count. -/
theorem countOcc_pos_of_mem :
    ∀ (d : Char) (ms : List Char), d ∈ ms → 1 ≤ countOcc d ms := by
  intro d ms
  induction ms with
  | nil => intro h; simp at h
  | cons c rest ih =>
    intro h
    rw [countOcc_cons]
    rcases List.mem_cons.mp h with h | h
    · rw [if_pos (by simp [h])]
      omega
    · have := ih h
      omega

/-- Key totals add over list concatenation. -/
theorem getCount_append :
    ∀ (xs ys : List (Char × Nat)) (d : Char),
      getCount (xs ++ ys) d = getCount xs d + getCount ys d := by
  intro xs ys d
  induction xs with
  | nil => simp [getCount]
  | cons p rest ih =>
    have h : (p :: rest) ++ ys = p :: (rest ++ ys) := rfl
    rw [h]
    simp only [getCount]
    rw [ih]
    omega

/-- In a counter, no entry before a given entry shares its key. -/
theorem key_not_in_prefix :
    ∀ (ms : List Char) (l1 : List (Char × Nat)) (p : Char × Nat)
      (l2 : List (Char × Nat)), counter ms = l1 ++ p :: l2 →
      ∀ q ∈ l1, q.1 ≠ p.1 := by
  intro ms l1 p l2 hacc q hq he
  have hpmem : p ∈ counter ms := by
    rw [hacc]
    exact List.mem_append_right _ (List.mem_cons_self p l2)
  have h2 : p.2 = getCount (counter ms) p.1 := (counter_inv ms p hpmem).2
  rw [hacc, getCount_append] at h2
  have h3 : getCount (p :: l2) p.1 = p.2 + getCount l2 p.1 := by
    simp [getCount]
  have h4 : q.2 ≤ getCount l1 p.1 := by
    have := mem_le_getCount l1 q hq
    rwa [he] at this
  have h5 : 1 ≤ q.2 := by
    refine (counter_inv ms q ?_).1
    rw [hacc]
    exact List.mem_append_left _ hq
  omega

/-- Boolean membership agrees with list membership. -/
theorem memB_iff_mem :
    ∀ (l : List Char) (x : Char), memB x l = true ↔ x ∈ l := by
  intro l x
  induction l with
  | nil => simp [memB]
  | cons c rest ih =>
    simp only [memB, Bool.or_eq_true, beq_iff_eq, List.mem_cons, ih]
    constructor
    · rintro (h | h)
      · exact Or.inl h.symm
      · exact Or.inr h
    · rintro (h | h)
      · exact Or.inl h.symm
      · exact Or.inr h

/-- Appending a single seen character is the same as prepending it. -/
theorem memB_append_single :
    ∀ (s : List Char) (c x : Char), memB x (s ++ [c]) = memB x (c :: s) := by
  intro s c x
  induction s with
  | nil => rfl
  | cons k s ih =>
    have h1 : memB x ((k :: s) ++ [c]) = ((k == x) || memB x (s ++ [c])) := rfl
    rw [h1, ih]
    show ((k == x) || ((c == x) || memB x s)) = ((c == x) || ((k == x) || memB x s))
    cases k == x <;> cases c == x <;> simp

/-- Inserting into a counter keeps the key order, appending a fresh key. -/
theorem keys_counterInsert :
    ∀ (acc : List (Char × Nat)) (c : Char),
      (counterInsert acc c).map Prod.fst =
        if memB c (acc.map Prod.fst) then acc.map Prod.fst
        else acc.map Prod.fst ++ [c] := by
  intro acc c
  induction acc with
  | nil => simp [counterInsert, memB]
  | cons q rest ih =>
    cases q with
    | mk e n =>
      cases hec : e == c with
      | true =>
        simp only [counterInsert, hec, if_true, List.map_cons, memB]
        simp
      | false =>
        simp only [counterInsert, hec, Bool.false_eq_true, if_false,
          List.map_cons, memB, Bool.false_or, ih]
        cases hm : memB c (List.map Prod.fst rest) with
        | true => simp [hm]
        | false => simp [hm]

/-- Deduplication only depends on which characters have been seen. -/
theorem dedupChars_congr :
    ∀ (ms s1 s2 : List Char), (∀ x, memB x s1 = memB x s2) →
      dedupChars s1 ms = dedupChars s2 ms := by
  intro ms
  induction ms with
  | nil => intro s1 s2 _; rfl
  | cons c rest ih =>
    intro s1 s2 h
    simp only [dedupChars, h c]
    cases hm : memB c s2 with
    | true => simp only [if_true]; exact ih s1 s2 h
    | false =>
      simp only [Bool.false_eq_true, if_false]
      have h2 : ∀ x, memB x (c :: s1) = memB x (c :: s2) := by
        intro x
        simp [memB, h x]
      rw [ih (c :: s1) (c :: s2) h2]

/-- The keys of the built counter are the match characters in
first-occurrence order. -/
theorem keys_foldl_counterInsert :
    ∀ (ms : List Char) (acc : List (Char × Nat)),
      (ms.foldl counterInsert acc).map Prod.fst =
        acc.map Prod.fst ++ dedupChars (acc.map Prod.fst) ms := by
  intro ms
  induction ms with
  | nil => intro acc; simp [dedupChars]
  | cons c rest ih =>
    intro acc
    rw [List.foldl_cons, ih (counterInsert acc c), keys_counterInsert]
    simp only [dedupChars]
    cases hm : memB c (acc.map Prod.fst) with
    | true => simp
    | false =>
      simp only [Bool.false_eq_true, if_false]
      rw [dedupChars_congr rest (acc.map Prod.fst ++ [c]) (c :: acc.map Prod.fst)
        (memB_append_single (acc.map Prod.fst) c)]
      simp

/-- The keys of `counter ms` are the first-occurrence deduplication of
`ms`. -/
theorem keys_counter :
    ∀ ms : List Char, (counter ms).map Prod.fst = dedupChars [] ms := by
  intro ms
  simpa [counter] using keys_foldl_counterInsert ms []

/-- Deduplication never emits an already-seen character. -/
theorem dedup_not_seen :
    ∀ (ms seen : List Char) (x : Char), x ∈ dedupChars seen ms →
      memB x seen = false := by
  intro ms
  induction ms with
  | nil => intro seen x h; simp [dedupChars] at h
  | cons c rest ih =>
    intro seen x h
    simp only [dedupChars] at h
    cases hm : memB c seen with
    | true =>
      rw [hm, if_pos rfl] at h
      exact ih seen x h
    | false =>
      rw [hm] at h
      simp only [Bool.false_eq_true, if_false] at h
      rcases List.mem_cons.mp h with h | h
      · rw [h]; exact hm
      · have h2 := ih (c :: seen) x h
        simp only [memB, Bool.or_eq_false_iff] at h2
        exact h2.2

/-- An unseen occurring character survives deduplication. -/
theorem mem_dedupChars :
    ∀ (ms seen : List Char) (x : Char), x ∈ ms → memB x seen = false →
      x ∈ dedupChars seen ms := by
  intro ms
  induction ms with
  | nil => intro seen x h _; simp at h
  | cons c rest ih =>
    intro seen x hx hseen
    simp only [dedupChars]
    by_cases hxc : x = c
    · rw [← hxc, hseen]
      simp only [Bool.false_eq_true, if_false]
      exact List.mem_cons_self x _
    · have hxr : x ∈ rest := by
        rcases List.mem_cons.mp hx with h | h
        · exact absurd h hxc
        · exact h
      cases hm : memB c seen with
      | true =>
        rw [if_pos rfl]
        exact ih seen x hxr hseen
      | false =>
        simp only [Bool.false_eq_true, if_false]
        refine List.mem_cons_of_mem c (ih (c :: seen) x hxr ?_)
        simp only [memB, Bool.or_eq_false_iff]
        exact ⟨beq_eq_false_iff_ne.mpr (fun h => hxc h.symm), hseen⟩

/-- The first index of an occurring character is inside the list. -/
theorem firstIdx_lt_length_of_mem :
    ∀ (l : List Char) (a : Char), a ∈ l → firstIdx a l < l.length := by
  intro l a
  induction l with
  | nil => intro h; simp at h
  | cons c rest ih =>
    intro h
    simp only [firstIdx, List.length_cons]
    cases hc : c == a with
    | true => simp
    | false =>
      simp only [Bool.false_eq_true, if_false]
      have ha : a ∈ rest := by
        rcases List.mem_cons.mp h with h | h
        · exact absurd h.symm (beq_eq_false_iff_ne.mp hc)
        · exact h
      have := ih ha
      omega

/-- The first index of a character of the prefix ignores the suffix. -/
theorem firstIdx_append_of_mem :
    ∀ (p : List Char) (a : Char) (s : List Char), a ∈ p →
      firstIdx a (p ++ s) = firstIdx a p := by
  intro p a s
  induction p with
  | nil => intro h; simp at h
  | cons c rest ih =>
    intro h
    simp only [List.cons_append, firstIdx]
    cases hc : c == a with
    | true => simp
    | false =>
      simp only [Bool.false_eq_true, if_false]
      have ha : a ∈ rest := by
        rcases List.mem_cons.mp h with h | h
        · exact absurd h.symm (beq_eq_false_iff_ne.mp hc)
        · exact h
      show firstIdx a (rest ++ s) + 1 = firstIdx a rest + 1
      rw [ih ha]

/-- The first index of a character absent from the prefix is the prefix
length. -/
theorem firstIdx_append_not_mem :
    ∀ (p : List Char) (b : Char) (s : List Char), b ∉ p →
      firstIdx b (p ++ b :: s) = p.length := by
  intro p b s
  induction p with
  | nil => simp [firstIdx]
  | cons c rest ih =>
    intro h
    have hc : (c == b) = false :=
      beq_eq_false_iff_ne.mpr (fun he => h (he ▸ List.mem_cons_self c rest))
    simp only [List.cons_append, firstIdx, hc, Bool.false_eq_true, if_false,
      List.length_cons]
    show firstIdx b (rest ++ b :: s) + 1 = rest.length + 1
    rw [ih (fun hb => h (List.mem_cons_of_mem c hb))]

/-- Deduplication preserves the relative first-occurrence order. -/
theorem dedup_firstIdx_mono :
    ∀ (ms seen : List Char) (a b : Char), a ∈ dedupChars seen ms →
      b ∈ dedupChars seen ms →
      firstIdx a (dedupChars seen ms) < firstIdx b (dedupChars seen ms) →
      firstIdx a ms < firstIdx b ms := by
  intro ms
  induction ms with
  | nil => intro seen a b ha _ _; simp [dedupChars] at ha
  | cons c rest ih =>
    intro seen a b ha hb hlt
    simp only [dedupChars] at ha hb hlt
    cases hm : memB c seen with
    | true =>
      rw [hm, if_pos rfl] at ha hb hlt
      have hac : (c == a) = false := by
        refine beq_eq_false_iff_ne.mpr (fun he => ?_)
        have h2 := dedup_not_seen rest seen a ha
        rw [← he, hm] at h2
        exact Bool.noConfusion h2
      have hbc : (c == b) = false := by
        refine beq_eq_false_iff_ne.mpr (fun he => ?_)
        have h2 := dedup_not_seen rest seen b hb
        rw [← he, hm] at h2
        exact Bool.noConfusion h2
      simp only [firstIdx, hac, hbc, Bool.false_eq_true, if_false]
      have := ih seen a b ha hb hlt
      omega
    | false =>
      rw [hm] at ha hb hlt
      simp only [Bool.false_eq_true, if_false] at ha hb hlt
      by_cases hbc : b = c
      · rw [hbc] at hlt
        simp [firstIdx] at hlt
      · have hbcb : (c == b) = false :=
          beq_eq_false_iff_ne.mpr (fun he => hbc he.symm)
        by_cases hac : a = c
        · simp [firstIdx, hac, hbcb]
        · have hacb : (c == a) = false :=
            beq_eq_false_iff_ne.mpr (fun he => hac he.symm)
          have ha2 : a ∈ dedupChars (c :: seen) rest := by
            rcases List.mem_cons.mp ha with h | h
            · exact absurd h hac
            · exact h
          have hb2 : b ∈ dedupChars (c :: seen) rest := by
            rcases List.mem_cons.mp hb with h | h
            · exact absurd h hbc
            · exact h
          have hlt2 : firstIdx a (dedupChars (c :: seen) rest) <
              firstIdx b (dedupChars (c :: seen) rest) := by
            simp only [firstIdx, hacb, hbcb, Bool.false_eq_true, if_false] at hlt
            omega
          have := ih (c :: seen) a b ha2 hb2 hlt2
          simp only [firstIdx, hacb, hbcb, Bool.false_eq_true, if_false]
          omega

/-- A head at least as large as every later entry is picked. -/
theorem pickMax_cons_of_le :
    ∀ (p : Char × Nat) (l2 : List (Char × Nat)), (∀ q ∈ l2, q.2 ≤ p.2) →
      pickMax (p :: l2) = some p := by
  intro p l2 h
  simp only [pickMax]
  cases hr : pickMax l2 with
  | none => rfl
  | some r =>
    dsimp only
    have := h r (pickMax_mem l2 r hr)
    rw [if_neg (by omega)]

/-- The leftmost entry of maximal count is picked: everything before it
is strictly smaller and everything after it no larger. -/
theorem pickMax_append :
    ∀ (l1 : List (Char × Nat)) (p : Char × Nat) (l2 : List (Char × Nat)),
      (∀ q ∈ l1, q.2 < p.2) → (∀ q ∈ l2, q.2 ≤ p.2) →
      pickMax (l1 ++ p :: l2) = some p := by
  intro l1
  induction l1 with
  | nil =>
    intro p l2 _ h2
    exact pickMax_cons_of_le p l2 h2
  | cons q l1 ih =>
    intro p l2 h1 h2
    have hrest : pickMax (l1 ++ p :: l2) = some p :=
      ih p l2 (fun r hr => h1 r (List.mem_cons_of_mem q hr)) h2
    show pickMax (q :: (l1 ++ p :: l2)) = some p
    simp only [pickMax]
    rw [hrest]
    dsimp only
    rw [if_pos (h1 q (List.mem_cons_self q l1))]

/-- Every counter entry is an occurring character with its occurrence
count. -/
theorem counter_entry_spec :
    ∀ (ms : List Char) (p : Char × Nat), p ∈ counter ms →
      p.1 ∈ ms ∧ p.2 = countOcc p.1 ms := by
  intro ms p h
  have hinv := counter_inv ms p h
  have hc : p.2 = countOcc p.1 ms := by rw [hinv.2, getCount_counter]
  exact ⟨countOcc_pos_mem _ _ (hc ▸ hinv.1), hc⟩

/-- `most_common(1)` returns exactly the claim's designated separator:
the one of maximal total count whose first occurrence is earliest among
ties, together with that count. -/
theorem mostCommon1_first_max :
    ∀ (ms : List Char) (d : Char), FirstMostCommonSep ms d →
      mostCommon1 ms = some (d, countOcc d ms) := by
  intro ms d hd
  obtain ⟨hmem, hmax, htie⟩ := hd
  have hkey : d ∈ (counter ms).map Prod.fst := by
    rw [keys_counter]
    exact mem_dedupChars ms [] d hmem rfl
  obtain ⟨p, hp, hp1⟩ := List.mem_map.mp hkey
  have hps := counter_entry_spec ms p hp
  have hpd : p = (d, countOcc d ms) := by
    cases p with
    | mk x k =>
      simp only at hp1
      subst hp1
      have := hps.2
      simp only at this
      rw [this]
  rw [hpd] at hp
  obtain ⟨l1, l2, hsplit⟩ := List.append_of_mem hp
  have hle : ∀ q ∈ l2, q.2 ≤ countOcc d ms := by
    intro q hq
    have hqacc : q ∈ counter ms := by
      rw [hsplit]
      exact List.mem_append_right _ (List.mem_cons_of_mem _ hq)
    have hqs := counter_entry_spec ms q hqacc
    rw [hqs.2]
    exact hmax q.1 hqs.1
  have hlt : ∀ q ∈ l1, q.2 < countOcc d ms := by
    intro q hq
    have hqacc : q ∈ counter ms := by
      rw [hsplit]
      exact List.mem_append_left _ hq
    have hqs := counter_entry_spec ms q hqacc
    have hqle : q.2 ≤ countOcc d ms := by
      rw [hqs.2]
      exact hmax q.1 hqs.1
    rcases Nat.lt_or_ge q.2 (countOcc d ms) with h | h
    · exact h
    · exfalso
      have heq2 : countOcc q.1 ms = countOcc d ms := by
        rw [← hqs.2]
        omega
      have htie2 : firstIdx d ms ≤ firstIdx q.1 ms := htie q.1 hqs.1 heq2
      have hkeys : (counter ms).map Prod.fst =
          l1.map Prod.fst ++ d :: l2.map Prod.fst := by
        rw [hsplit]
        simp
      have hdnotin : d ∉ l1.map Prod.fst := by
        intro hdin
        obtain ⟨q2, hq2, hq21⟩ := List.mem_map.mp hdin
        exact key_not_in_prefix ms l1 (d, countOcc d ms) l2 hsplit q2 hq2 hq21
      have hq1in : q.1 ∈ l1.map Prod.fst := List.mem_map_of_mem Prod.fst hq
      have horder : firstIdx q.1 ((counter ms).map Prod.fst) <
          firstIdx d ((counter ms).map Prod.fst) := by
        rw [hkeys, firstIdx_append_of_mem _ _ _ hq1in,
          firstIdx_append_not_mem _ _ _ hdnotin]
        exact firstIdx_lt_length_of_mem _ _ hq1in
      have haIn : q.1 ∈ dedupChars [] ms := by
        rw [← keys_counter]
        exact List.mem_map_of_mem Prod.fst hqacc
      have hbIn : d ∈ dedupChars [] ms := by
        rw [← keys_counter]
        exact hkey
      have horder2 : firstIdx q.1 (dedupChars [] ms) <
          firstIdx d (dedupChars [] ms) := by
        rw [keys_counter] at horder
        exact horder
      have hmono := dedup_firstIdx_mono ms [] q.1 d haIn hbIn horder2
      omega
  have hpm := pickMax_append l1 (d, countOcc d ms) l2 hlt hle
  unfold mostCommon1
  rw [hsplit]
  exact hpm

/-- All-empty per-title matches flatten to nothing. -/
theorem flatten_eq_nil_of_all_nil :
    ∀ (L : List (List Char)), (∀ l ∈ L, l = []) → L.flatten = [] := by
  intro L
  induction L with
  | nil => intro _; rfl
  | cons l L ih =>
    intro h
    simp only [List.flatten_cons, h l (List.mem_cons_self l L)]
    simpa using ih (fun x hx => h x (List.mem_cons_of_mem l hx))

/-- C5 counterexample: two refutations at concrete inputs.  For the
titles ["a | b | c", "x", "y"] the pipe occurs twice in a single title,
so the code returns the pipe although it appears in only one of the three
titles (not in more than half), refuting the per-title reading of the
majority rule.  And for ["a | b - c | d - e", "x"] the pipe and the
hyphen tie at two occurrences each, yet the code returns the pipe (the
candidate seen first), refuting "ties between candidates yield '-'". -/
theorem delimiter_majority_counterexample :
    (find_common_track_delimiter ["a | b | c", "x", "y"] = '|'
      ∧ ((["a | b | c", "x", "y"] : List String).filter
          (fun n => n.toList.contains '|')).length = 1
      ∧ ¬(2 * 1 > 3))
    ∧ (find_common_track_delimiter ["a | b - c | d - e", "x"] = '|'
      ∧ countOcc '|'
          (((["a | b - c | d - e", "x"] : List String).map
            (fun n => sepFindall n.toList)).flatten) =
        countOcc '-'
          (((["a | b - c | d - e", "x"] : List String).map
            (fun n => sepFindall n.toList)).flatten)
      ∧ '|' ≠ '-') := by
  exact ⟨⟨rfl, rfl, by omega⟩, ⟨rfl, rfl, by decide⟩⟩

/-- C5 amended: `find_common_track_delimiter` returns the dash when no
candidate separator occurs in any title.  Otherwise, with the candidate
occurrences of all titles pooled, the most frequent candidate — ties
between candidates broken towards the one whose first occurrence in the
pooled stream is earliest, not towards the dash — is returned exactly
when the release has a single title or its TOTAL number of occurrences
(not the number of titles containing it) exceeds half the number of
titles, and the dash is returned below that threshold; a returned
non-dash character is always such an occurring candidate above the
threshold. -/
theorem delimiter_majority_amended :
    ∀ names : List String,
      ((∀ n ∈ names, sepFindall n.toList = []) →
        find_common_track_delimiter names = '-')
      ∧ (∀ d, find_common_track_delimiter names = d → d ≠ '-' →
          d ∈ (names.map (fun n => sepFindall n.toList)).flatten
          ∧ (names.length = 1 ∨
            2 * countOcc d ((names.map (fun n => sepFindall n.toList)).flatten) >
              names.length))
      ∧ (∀ d, FirstMostCommonSep
            ((names.map (fun n => sepFindall n.toList)).flatten) d →
          (names.length = 1 ∨
            2 * countOcc d ((names.map (fun n => sepFindall n.toList)).flatten) >
              names.length) →
          find_common_track_delimiter names = d)
      ∧ (∀ d, FirstMostCommonSep
            ((names.map (fun n => sepFindall n.toList)).flatten) d →
          names.length ≠ 1 →
          2 * countOcc d ((names.map (fun n => sepFindall n.toList)).flatten) ≤
            names.length →
          find_common_track_delimiter names = '-') := by
  intro names
  refine ⟨?_, ?_, ?_, ?_⟩
  · intro hall
    have hm : (names.map (fun n => sepFindall n.toList)).flatten = [] := by
      apply flatten_eq_nil_of_all_nil
      intro l hl
      rcases List.mem_map.mp hl with ⟨n, hn, rfl⟩
      exact hall n hn
    unfold find_common_track_delimiter
    rw [hm]
    rfl
  · intro d hd hne
    unfold find_common_track_delimiter at hd
    cases hmc : mostCommon1 ((names.map (fun n => sepFindall n.toList)).flatten) with
    | none =>
      rw [hmc] at hd
      dsimp only at hd
      exact absurd hd.symm hne
    | some p =>
      cases p with
      | mk e c =>
        rw [hmc] at hd
        dsimp only at hd
        have hspec := mostCommon1_spec _ e c hmc
        by_cases hcond :
            (names.length == 1 || 2 * c > names.length : Bool) = true
        · rw [if_pos hcond] at hd
          subst hd
          refine ⟨hspec.2, ?_⟩
          rcases Bool.or_eq_true _ _ |>.mp hcond with h1 | h2
          · exact Or.inl (by simpa using h1)
          · exact Or.inr (by rw [hspec.1] at h2; simpa using h2)
        · rw [if_neg hcond] at hd
          exact absurd hd.symm hne
  · intro d hfmc hthresh
    have hmc := mostCommon1_first_max _ d hfmc
    unfold find_common_track_delimiter
    rw [hmc]
    dsimp only
    rw [if_pos ?_]
    rcases hthresh with h1 | h2
    · exact Bool.or_eq_true _ _ |>.mpr (Or.inl (by simpa using h1))
    · exact Bool.or_eq_true _ _ |>.mpr (Or.inr (by simpa using h2))
  · intro d hfmc hne1 hle
    have hmc := mostCommon1_first_max _ d hfmc
    unfold find_common_track_delimiter
    rw [hmc]
    dsimp only
    rw [if_neg ?_]
    intro hcond
    rcases Bool.or_eq_true _ _ |>.mp hcond with h1 | h2
    · exact hne1 (by simpa using h1)
    · have : 2 * countOcc d ((names.map (fun n => sepFindall n.toList)).flatten) >
          names.length := by simpa using h2
      omega

/-- C5 amended, witness: the no-separator case; the pipe returned by
occurrence-count majority over three titles; a single title returning its
separator; the pipe winning a tie against the hyphen by earliest first
occurrence; and the dash returned below the threshold. -/
theorem delimiter_majority_amended_witness :
    find_common_track_delimiter ["x", "y"] = '-'
    ∧ ('|' ∈ ((["a | b", "c | d", "e"] : List String).map
          (fun n => sepFindall n.toList)).flatten
        ∧ ((["a | b", "c | d", "e"] : List String).length = 1 ∨
          2 * countOcc '|' (((["a | b", "c | d", "e"] : List String).map
              (fun n => sepFindall n.toList)).flatten) >
            (["a | b", "c | d", "e"] : List String).length))
    ∧ find_common_track_delimiter ["a | b"] = '|'
    ∧ find_common_track_delimiter ["a | b - c | d - e", "x"] = '|'
    ∧ find_common_track_delimiter ["a | b", "x", "y"] = '-' :=
  ⟨(delimiter_majority_amended ["x", "y"]).1 (by decide),
   (delimiter_majority_amended ["a | b", "c | d", "e"]).2.1 '|' rfl (by decide),
   (delimiter_majority_amended ["a | b"]).2.2.1 '|' (by decide)
     (Or.inl (by decide)),
   (delimiter_majority_amended ["a | b - c | d - e", "x"]).2.2.1 '|' (by decide)
     (Or.inr (by decide)),
   (delimiter_majority_amended ["a | b", "x", "y"]).2.2.2 '|' (by decide)
     (by decide) (by decide)⟩

/-- Packaging: a stage equal to a map over the input is a map and keeps
the length. -/
theorem map_form_len (l r : List String) (f : String → String)
    (h : r = l.map f) : ∃ g, r = l.map g ∧ r.length = l.length :=
  ⟨f, h, by rw [h, List.length_map]⟩

/-- A `filterMap` that keeps every entry is the map taking each entry to
its (necessarily present) image. -/
theorem filterMap_length_eq_map :
    ∀ (l : List String) (f : String → Option String),
      (l.filterMap f).length = l.length →
      l.filterMap f = l.map (fun n => (f n).getD n) := by
  intro l f
  induction l with
  | nil => intro h; rfl
  | cons a l ih =>
    intro h
    rw [List.filterMap_cons] at h ⊢
    cases hf : f a with
    | none =>
      rw [hf] at h
      have hle := List.length_filterMap_le f l
      simp only [List.length_cons] at h
      omega
    | some b =>
      rw [hf] at h
      simp only [List.length_cons] at h
      simp [hf, ih (by omega)]

/-- Zipping a list with its own map and projecting through a function is
a per-entry map. -/
theorem zip_map_right :
    ∀ (l : List String) (g : String → Option String)
      (k : String × Option String → String),
      (l.zip (l.map g)).map k = l.map (fun n => k (n, g n)) := by
  intro l g k
  induction l with
  | nil => rfl
  | cons a l ih => simp [ih]

/-- Zipping the map of a list with the list itself and projecting through
a function is a per-entry map. -/
theorem zip_map_left :
    ∀ (l : List String) (g : String → Option (String × String))
      (k : Option (String × String) × String → String),
      ((l.map g).zip l).map k = l.map (fun n => k (g n, n)) := by
  intro l g k
  induction l with
  | nil => rfl
  | cons a l ih => simp [ih]

/-- One catalog-ejection step rewrites the title list entry by entry: it
is a map over the incoming titles. -/
theorem ejectStep_map :
    ∀ (st : Option String × List String) (w : String),
      ∃ f, (ejectStep st w).2 = st.2.map f := by
  intro st w
  unfold ejectStep
  cases catalognumAnywhere w with
  | some g =>
    exact ⟨fun n =>
      String.mk (pyStripChars ['|', '-', ' '] (pyReplace n w "").toList), rfl⟩
  | none => exact ⟨id, (List.map_id st.2).symm⟩

/-- The whole catalog-ejection loop rewrites the title list entry by
entry: it is a map over the incoming titles. -/
theorem foldl_ejectStep_map :
    ∀ (ws : List String) (st : Option String × List String),
      ∃ f, (ws.foldl ejectStep st).2 = st.2.map f := by
  intro ws
  induction ws with
  | nil => intro st; exact ⟨id, (List.map_id st.2).symm⟩
  | cons w ws ih =>
    intro st
    rcases ejectStep_map st w with ⟨f0, hf0⟩
    rcases ih (ejectStep st w) with ⟨g, hg⟩
    refine ⟨g ∘ f0, ?_⟩
    rw [List.foldl_cons, hg, hf0, List.map_map]

/-- Reading the track names keeps the number of entries. -/
theorem namesOf_length :
    ∀ (ts : List PyJson) (l : List String), namesOf ts = .ok l →
      l.length = ts.length := by
  intro ts
  induction ts with
  | nil =>
    intro l h
    simp only [namesOf] at h
    injection h with h
    rw [← h]
    rfl
  | cons t ts ih =>
    intro l h
    simp only [namesOf, Bind.bind, Except.bind] at h
    cases hsub : pySubscript t "name" with
    | error e =>
      rw [hsub] at h
      exact Except.noConfusion h
    | ok v =>
      rw [hsub] at h
      cases v with
      | str s =>
        dsimp only at h
        cases hrec : namesOf ts with
        | error e =>
          rw [hrec] at h
          exact Except.noConfusion h
        | ok l2 =>
          rw [hrec] at h
          dsimp only at h
          injection h with h
          rw [← h]
          simp [ih l2 hrec]
      | null => exact Except.noConfusion h
      | num n => exact Except.noConfusion h
      | list xs => exact Except.noConfusion h
      | dict kvs => exact Except.noConfusion h

/-- C8: every release-level normalization stage rewrites the title list
entry by entry — its output is `names.map f` for a per-title function
`f`, so it has the same length as the input, in the same order, never
adding, dropping or reordering entries (for the catalog ejection,
whenever it returns at all); and after `resolve` the lengths of the
titles, the JSON tracks and the original titles agree. -/
theorem stages_preserve_length :
    (∀ names : List String, ∃ f,
        split_quoted_titles names = names.map f
        ∧ (split_quoted_titles names).length = names.length)
    ∧ (∀ (c : Option String) (names : List String), ∃ f,
        remove_album_catalognum c names = names.map f
        ∧ (remove_album_catalognum c names).length = names.length)
    ∧ (∀ (names : List String) (r : Option String × List String),
        eject_common_catalognum names = .ok r →
        ∃ f, r.2 = names.map f ∧ r.2.length = names.length)
    ∧ (∀ names : List String, ∃ f,
        removeNumberPrefixes names = names.map f
        ∧ (removeNumberPrefixes names).length = names.length)
    ∧ (∀ names : List String, ∃ f,
        normalize_delimiter names = names.map f
        ∧ (normalize_delimiter names).length = names.length)
    ∧ (∀ (lab : String) (names : List String), ∃ f,
        remove_label lab names = names.map f
        ∧ (remove_label lab names).length = names.length)
    ∧ (∀ names : List String, ∃ f,
        (eject_album_name names).2 = names.map f
        ∧ (eject_album_name names).2.length = names.length)
    ∧ (∀ (aa : String) (names : List String), ∃ f,
        ensure_artist_first aa names = names.map f
        ∧ (ensure_artist_first aa names).length = names.length)
    ∧ (∀ (nm m : Names) (jt : List PyJson) (ot : List String),
        nm.titles = [] → Names.resolve nm = .ok m → nm.json_tracks = .ok jt →
        nm.original_titles = .ok ot →
        m.titles.length = ot.length ∧ ot.length = jt.length) := by
  refine ⟨?_, ?_, ?_, ?_, ?_, ?_, ?_, ?_, ?_⟩
  · intro names
    simp only [split_quoted_titles]
    split_ifs with h1 h2
    · exact map_form_len names _ _
        (filterMap_length_eq_map names _ (beq_iff_eq.mp h2))
    · exact map_form_len names names id (List.map_id names).symm
    · exact map_form_len names names id (List.map_id names).symm
  · intro c names
    cases c with
    | some cat =>
      exact map_form_len names _
        (fun n => String.mk (racSubGo cat.toList n.toList.length n.toList)) rfl
    | none => exact map_form_len names names id (List.map_id names).symm
  · intro names r h
    cases names with
    | nil => simp [eject_common_catalognum] at h
    | cons n rest =>
      simp only [eject_common_catalognum, List.map_cons] at h
      cases hts : pySplitWs n.toList with
      | nil =>
        rw [hts] at h
        exact Except.noConfusion h
      | cons w0 ws =>
        rw [hts] at h
        dsimp only at h
        injection h with h
        rw [← h]
        rcases foldl_ejectStep_map
          (([w0, (w0 :: ws).getLastD ""].filter
            ((rest.map (fun n2 => pySplitWs n2.toList)).foldl
              (fun acc s => acc.filter s.contains) (w0 :: ws)).contains))
          (none, n :: rest) with ⟨f, hf⟩
        exact map_form_len (n :: rest) _ f hf
  · intro names
    simp only [removeNumberPrefixes]
    split_ifs with h
    · exact map_form_len names _ _ (zip_map_right names
        (fun n => npSearch n.toList)
        (fun np => pyReplace np.1 (np.2.getD "") ""))
    · exact map_form_len names names id (List.map_id names).symm
  · intro names
    exact map_form_len names _
      (fun n => String.mk
        (ndSubGo (find_common_track_delimiter names) n.toList.length n.toList)) rfl
  · intro lab names
    exact map_form_len names _
      (fun n => pyStripStr (String.mk (rlSubGo lab.toList n.toList.length n.toList)))
      rfl
  · intro names
    simp only [eject_album_name]
    split
    · exact map_form_len names _ _ (zip_map_left names
        (fun n => albumInTitleSearch n.toList)
        (fun mn =>
          match mn.1 with
          | some fg => pyReplace mn.2 fg.1 ""
          | none => mn.2))
    · exact map_form_len names names id (List.map_id names).symm
  · intro aa names
    simp only [ensure_artist_first]
    split_ifs with h
    · exact map_form_len names _ _
        (List.map_map (g := fun s => s.getD 1 "" ++ " - " ++ s.headD "")
          (f := fun n => pySplitOnce n " - ") (l := names))
    · exact map_form_len names names id (List.map_id names).symm
  · intro nm m jt ot htitles hres hjt hot
    have hno : namesOf jt = .ok ot := by
      have h2 : nm.original_titles = .ok ot := hot
      unfold Names.original_titles at h2
      rw [hjt] at h2
      simpa [Bind.bind, Except.bind] using h2
    have hlen2 : ot.length = jt.length := namesOf_length jt ot hno
    refine ⟨?_, hlen2⟩
    unfold Names.resolve at hres
    rw [hot] at hres
    simp only [Bind.bind, Except.bind] at hres
    by_cases he : ot.isEmpty
    · rw [if_pos he] at hres
      have hm : m = nm := by simpa [Pure.pure, Except.pure] using hres.symm
      rw [hm, htitles]
      cases ot with
      | nil => rfl
      | cons a l => simp at he
    · rw [if_neg he] at hres
      by_cases hs : nm.singleton
      · rw [if_pos hs] at hres
        cases halb : nm.album with
        | error e =>
          rw [halb] at hres
          exact Except.noConfusion hres
        | ok a =>
          rw [halb] at hres
          dsimp only at hres
          have hm : m = { nm with titles := [a] } := by
            simpa [Pure.pure, Except.pure] using hres.symm
          rw [hm]
          have hjt2 : jt =
              [dictMerge nm.meta
                (.dict [("byArtist", .dict [("name", .str nm.album_artist)])])] := by
            have h3 := hjt
            unfold Names.json_tracks at h3
            rw [if_pos hs] at h3
            injection h3 with h3
            exact h3.symm
          rw [hjt2] at hlen2
          simp only [List.length_cons, List.length_nil] at hlen2
          simp [hlen2]
      · rw [if_neg hs] at hres
        have hm : m = { nm with titles := ot } := by
          simpa [Pure.pure, Except.pure] using hres.symm
        rw [hm]

/-- C8, witness: the hypothesised conjuncts applied at concrete inputs —
a successful catalog ejection whose result is a map of the input titles,
and the resolved two-track release with matching lengths. -/
theorem stages_preserve_length_witness :
    (eject_common_catalognum ["a b"] = .ok (none, ["a b"])
      ∧ ∃ f, (["a b"] : List String) = (["a b"] : List String).map f)
    ∧ (∃ m jt ot, Names.resolve c2names = .ok m
        ∧ c2names.json_tracks = .ok jt ∧ c2names.original_titles = .ok ot
        ∧ m.titles.length = ot.length ∧ ot.length = jt.length) := by
  refine ⟨⟨rfl, ?_⟩, ⟨_, _, _, rfl, rfl, rfl, ?_, ?_⟩⟩
  · rcases stages_preserve_length.2.2.1 ["a b"] (none, ["a b"]) rfl
      with ⟨f, hf, _⟩
    exact ⟨f, hf⟩
  · exact (stages_preserve_length.2.2.2.2.2.2.2.2 c2names _ _ _
      rfl rfl rfl rfl).1
  · exact (stages_preserve_length.2.2.2.2.2.2.2.2 c2names _ _ _
      rfl rfl rfl rfl).2

end Beetcamp
